import Mathlib

set_option maxHeartbeats 1000000
set_option maxRecDepth 8000

/-!
Verification development for the resume-parser application (src/resumeparser.py).

The pipeline is embedded shallowly:
* JSON values (as produced by Python json.loads) are the inductive type Json,
  with numbers modelled as rationals;
* the OpenAI client handle is a function from the prompt text to either an
  exception message or the raw function_call.arguments string;
* json.dumps(..., indent=2) and json.loads are modelled by an executable
  printer (render / json_dumps) and parser (parseValue / json_loads) over
  character lists, covering the JSON fragment the application exchanges
  (no NaN/Infinity literals and no exponent notation for numbers);
* Streamlit UI calls (st.progress, st.warning, st.error, st.status updates)
  and the outbound service call are recorded as an event trace.
-/

/-- JSON values as produced by json.loads: null, booleans, numbers (modelled as
rationals), strings, arrays, and objects (association lists in insertion order). -/
inductive Json where
  | null : Json
  | bool : Bool → Json
  | num : ℚ → Json
  | str : String → Json
  | arr : List Json → Json
  | obj : List (String × Json) → Json

/-- Python truthiness of a JSON value, as used by the source's `if details:`
checks: None, False, 0, empty string, empty list and empty dict are falsy. -/
def Json.truthy : Json → Bool
  | .null => false
  | .bool b => b
  | .num q => decide (q ≠ 0)
  | .str s => decide (s ≠ "")
  | .arr xs => !xs.isEmpty
  | .obj kvs => !kvs.isEmpty

/-- First-match lookup in an association list (Python dict read d[k] / d.get(k)). -/
def lookupKey : List (String × Json) → String → Option Json
  | [], _ => none
  | (k, v) :: rest, key => if k = key then some v else lookupKey rest key

/-- Field lookup on a JSON value; none when the value is not an object or the
key is absent. -/
def Json.getKey : Json → String → Option Json
  | .obj kvs, key => lookupKey kvs key
  | _, _ => none

/-- Python dict assignment d[k] = v: replace the value at the first occurrence
of the key, or append the pair at the end (insertion order). -/
def setKey : List (String × Json) → String → Json → List (String × Json)
  | [], key, v => [(key, v)]
  | (k, w) :: rest, key, v =>
    if k = key then (key, v) :: rest else (k, w) :: setKey rest key v

/-- Python item assignment details[k] = v. It succeeds only on dict values;
on any other value the interpreter raises a TypeError, modelled as none. -/
def Json.trySetItem : Json → String → Json → Option Json
  | .obj kvs, key, v => some (.obj (setKey kvs key v))
  | _, _, _ => none

/-- A record conforming to the declared function-calling schema: an object
carrying all four required fields name, email, skills, experience_years. -/
def hasRequiredFields (j : Json) : Bool :=
  (j.getKey "name").isSome && (j.getKey "email").isSome &&
    (j.getKey "skills").isSome && (j.getKey "experience_years").isSome

mutual

/-- Structural equality of JSON values in Bool form, modelling the Python
equality used by list.count. -/
def Json.beq : Json → Json → Bool
  | .null, .null => true
  | .bool a, .bool b => a = b
  | .num p, .num q => decide (p = q)
  | .str s, .str t => s = t
  | .arr xs, .arr ys => Json.beqList xs ys
  | .obj ps, .obj qs => Json.beqKVs ps qs
  | _, _ => false

/-- Elementwise Json.beq on arrays. -/
def Json.beqList : List Json → List Json → Bool
  | [], [] => true
  | x :: xs, y :: ys => Json.beq x y && Json.beqList xs ys
  | _, _ => false

/-- Pairwise Json.beq on object members. -/
def Json.beqKVs : List (String × Json) → List (String × Json) → Bool
  | [], [] => true
  | (k, v) :: ps, (l, w) :: qs => decide (k = l) && Json.beq v w && Json.beqKVs ps qs
  | _, _ => false

end

/-! JSON printing, modelling json.dumps(data, indent=2) with its default
ensure_ascii=True escaping. -/

/-- Decimal digit character. -/
def digitChar (d : ℕ) : Char := Char.ofNat (48 + d)

/-- Decimal digits of a natural number, most significant first (fuelled). -/
def digitsAux : ℕ → ℕ → List Char
  | 0, _ => []
  | fuel + 1, n =>
    if n < 10 then [digitChar n] else digitsAux fuel (n / 10) ++ [digitChar (n % 10)]

/-- Decimal digits of a natural number, most significant first. -/
def natDigits (n : ℕ) : List Char := digitsAux (n + 1) n

/-- Exactly k decimal digits of n % 10^k, zero padded on the left. -/
def natDigitsPad : ℕ → ℕ → List Char
  | 0, _ => []
  | k + 1, n => natDigitsPad k (n / 10) ++ [digitChar (n % 10)]

/-- Decimal digits of an integer, with a leading minus sign when negative. -/
def intDigits (m : ℤ) : List Char :=
  (if m < 0 then ['-'] else []) ++ natDigits m.natAbs

/-- Least exponent k with d dividing 10^k, when one exists (it does exactly
when d has no prime factors besides 2 and 5). -/
def pow10Exp (d : ℕ) : Option ℕ :=
  (List.range (d + 1)).find? (fun k => decide (d ∣ 10 ^ k))

/-- Decimal rendering of a rational JSON number (integer, or integer part,
point, fraction digits). Non-terminating decimals cannot arise from parsed
JSON input and are rendered as 0. -/
def renderNum (q : ℚ) : List Char :=
  match pow10Exp q.den with
  | none => ['0']
  | some k =>
    if k = 0 then intDigits q.num
    else
      let s := q.num.natAbs * (10 ^ k / q.den)
      (if q.num < 0 then ['-'] else []) ++
        natDigits (s / 10 ^ k) ++ '.' :: natDigitsPad k (s % 10 ^ k)

/-- Lower-case hexadecimal digit character. -/
def hexDigitChar (d : ℕ) : Char :=
  if d < 10 then digitChar d else Char.ofNat (87 + d)

/-- Four-digit hexadecimal rendering of n % 65536. -/
def hex4 (n : ℕ) : List Char :=
  [hexDigitChar (n / 4096 % 16), hexDigitChar (n / 256 % 16),
    hexDigitChar (n / 16 % 16), hexDigitChar (n % 16)]

/-- Escape one character the way json.dumps with ensure_ascii=True does:
quote and backslash get a backslash escape, the five classic control
characters get their shorthand, other characters outside printable ASCII
get a uXXXX escape (a surrogate pair beyond the basic plane). -/
def escapeChar (c : Char) : List Char :=
  if c = '"' then ['\\', '"']
  else if c = '\\' then ['\\', '\\']
  else if c.toNat = 8 then ['\\', 'b']
  else if c.toNat = 9 then ['\\', 't']
  else if c.toNat = 10 then ['\\', 'n']
  else if c.toNat = 12 then ['\\', 'f']
  else if c.toNat = 13 then ['\\', 'r']
  else if 32 ≤ c.toNat ∧ c.toNat ≤ 126 then [c]
  else if c.toNat < 65536 then '\\' :: 'u' :: hex4 c.toNat
  else
    '\\' :: 'u' :: hex4 (55296 + (c.toNat - 65536) / 1024) ++
      '\\' :: 'u' :: hex4 (56320 + (c.toNat - 65536) % 1024)

/-- Escaped body of a JSON string followed by the closing quote. -/
def escList (l : List Char) : List Char := l.flatMap escapeChar ++ ['"']

/-- Newline plus the 2-space-per-level indentation json.dumps(indent=2)
emits before each array element and object member. -/
def indentChars (lvl : ℕ) : List Char := '\n' :: List.replicate (2 * lvl) ' '

mutual

/-- Pretty-printing of a JSON value at a given indentation level, following
json.dumps(value, indent=2): empty containers print as two brackets, and
each element of a non-empty container starts on its own indented line. -/
def render : Json → ℕ → List Char
  | .null, _ => ['n', 'u', 'l', 'l']
  | .bool true, _ => ['t', 'r', 'u', 'e']
  | .bool false, _ => ['f', 'a', 'l', 's', 'e']
  | .num q, _ => renderNum q
  | .str s, _ => '"' :: escList s.data
  | .arr [], _ => ['[', ']']
  | .arr (x :: xs), lvl =>
    '[' :: renderElems (x :: xs) (lvl + 1) ++ indentChars lvl ++ [']']
  | .obj [], _ => ['\x7b', '\x7d']
  | .obj (p :: ps), lvl =>
    '\x7b' :: renderMembers (p :: ps) (lvl + 1) ++ indentChars lvl ++ ['\x7d']

/-- Array elements, each on an indented line, separated by commas. -/
def renderElems : List Json → ℕ → List Char
  | [], _ => []
  | [x], lvl => indentChars lvl ++ render x lvl
  | x :: y :: xs, lvl =>
    indentChars lvl ++ render x lvl ++ ',' :: renderElems (y :: xs) lvl

/-- Object members, each on an indented line as "key": value, separated by
commas. -/
def renderMembers : List (String × Json) → ℕ → List Char
  | [], _ => []
  | [(k, v)], lvl => indentChars lvl ++ '"' :: escList k.data ++ ':' :: ' ' :: render v lvl
  | (k, v) :: q :: qs, lvl =>
    indentChars lvl ++ '"' :: escList k.data ++ ':' :: ' ' :: render v lvl ++
      ',' :: renderMembers (q :: qs) lvl

end

/-- The JSON text json.dumps(v, indent=2) produces. -/
def json_dumps (v : Json) : String := ⟨render v 0⟩

/-! JSON parsing, modelling json.loads on the fragment of JSON the
application exchanges (strict JSON without NaN/Infinity literals and
without exponent notation for numbers). -/

/-- JSON insignificant whitespace. -/
def isWsChar (c : Char) : Bool := c = ' ' ∨ c = '\t' ∨ c = '\n' ∨ c = '\r'

/-- Drop leading JSON whitespace. -/
def skipWs : List Char → List Char
  | [] => []
  | c :: cs => if isWsChar c then skipWs cs else c :: cs

/-- Value of a hexadecimal digit character, accepting both cases. -/
def hexVal (c : Char) : Option ℕ :=
  if 48 ≤ c.toNat ∧ c.toNat ≤ 57 then some (c.toNat - 48)
  else if 97 ≤ c.toNat ∧ c.toNat ≤ 102 then some (c.toNat - 87)
  else if 65 ≤ c.toNat ∧ c.toNat ≤ 70 then some (c.toNat - 55)
  else none

/-- Value of four hexadecimal digit characters. -/
def hexVal4 (a b c d : Char) : Option ℕ := do
  let va ← hexVal a
  let vb ← hexVal b
  let vc ← hexVal c
  let vd ← hexVal d
  pure (va * 4096 + vb * 256 + vc * 16 + vd)

/-- Decode a single-character JSON string escape. -/
def unescape (c : Char) : Option Char :=
  if c = '"' then some '"'
  else if c = '\\' then some '\\'
  else if c = '/' then some '/'
  else if c = 'b' then some (Char.ofNat 8)
  else if c = 'f' then some (Char.ofNat 12)
  else if c = 'n' then some '\n'
  else if c = 'r' then some '\r'
  else if c = 't' then some '\t'
  else none

mutual

/-- Parse the body of a JSON string after the opening quote, handling
backslash escapes, uXXXX escapes and surrogate pairs; returns the decoded
characters and the input after the closing quote. -/
def parseStrAux : List Char → Option (List Char × List Char)
  | [] => none
  | c :: cs =>
    if c = '"' then some ([], cs)
    else if c = '\\' then parseEsc cs
    else
      match parseStrAux cs with
      | some (s, r) => some (c :: s, r)
      | none => none
termination_by structural cs => cs

/-- Decode what follows a backslash inside a JSON string. -/
def parseEsc : List Char → Option (List Char × List Char)
  | [] => none
  | e :: cs1 =>
    if e = 'u' then parseU cs1
    else
      match unescape e with
      | none => none
      | some ch =>
        match parseStrAux cs1 with
        | some (s, r) => some (ch :: s, r)
        | none => none
termination_by structural cs => cs

/-- Decode the four hex digits of a uXXXX escape; a high surrogate must be
followed by a low surrogate forming one supplementary character. -/
def parseU : List Char → Option (List Char × List Char)
  | a :: b :: c2 :: d :: cs2 =>
    (match hexVal4 a b c2 d with
    | none => none
    | some n =>
      if n < 55296 ∨ 57343 < n then
        match parseStrAux cs2 with
        | some (s, r) => some (Char.ofNat n :: s, r)
        | none => none
      else if n ≤ 56319 then parseLow n cs2
      else none)
  | _ => none
termination_by structural cs => cs

/-- Decode the low half of a surrogate pair. -/
def parseLow (n : ℕ) : List Char → Option (List Char × List Char)
  | e2 :: u2 :: a2 :: b2 :: c3 :: d2 :: cs3 =>
    if e2 = '\\' ∧ u2 = 'u' then
      match hexVal4 a2 b2 c3 d2 with
      | some m =>
        if 56320 ≤ m ∧ m ≤ 57343 then
          match parseStrAux cs3 with
          | some (s, r) =>
            some (Char.ofNat (65536 + (n - 55296) * 1024 + (m - 56320)) :: s, r)
          | none => none
        else none
      | none => none
    else none
  | _ => none
termination_by structural cs => cs

end

/-- Read a maximal run of decimal digits, accumulating value and count. -/
def readDigitsAux : List Char → ℕ → ℕ → ℕ × ℕ × List Char
  | [], v, k => (v, k, [])
  | c :: cs, v, k =>
    if 48 ≤ c.toNat ∧ c.toNat ≤ 57 then
      readDigitsAux cs (v * 10 + (c.toNat - 48)) (k + 1)
    else (v, k, c :: cs)

/-- Parse the digits of a JSON number after an optional minus sign: integer
digits and an optional fraction part. The value ±(I.F) is built with mkRat so
that it evaluates by kernel reduction. -/
def parseNumCore (neg : Bool) (cs1 : List Char) : Option (Json × List Char) :=
  match readDigitsAux cs1 0 0 with
  | (_, 0, _) => none
  | (iv, _ + 1, cs2) =>
    match cs2 with
    | '.' :: cs3 =>
      (match readDigitsAux cs3 0 0 with
      | (_, 0, _) => none
      | (fv, fk + 1, cs4) =>
        some (Json.num (mkRat
          (if neg then -((iv * 10 ^ (fk + 1) + fv : ℕ) : ℤ)
            else ((iv * 10 ^ (fk + 1) + fv : ℕ) : ℤ)) (10 ^ (fk + 1))), cs4))
    | _ =>
      some (Json.num (mkRat (if neg then -((iv : ℕ) : ℤ) else ((iv : ℕ) : ℤ)) 1), cs2)

/-- Parse a JSON number token. -/
def parseNum (cs : List Char) : Option (Json × List Char) :=
  match cs with
  | '-' :: cs1 => parseNumCore true cs1
  | _ => parseNumCore false cs

mutual

/-- Parse one JSON value, skipping leading whitespace and dispatching on the
first significant character (fuelled recursion; the fuel only bounds the
recursion depth, and every actual input is parsed with ample fuel). -/
def parseValue : ℕ → List Char → Option (Json × List Char)
  | 0, _ => none
  | f + 1, cs =>
    match skipWs cs with
    | [] => none
    | c :: cs1 =>
      if c = 'n' then
        match cs1 with
        | 'u' :: 'l' :: 'l' :: r => some (Json.null, r)
        | _ => none
      else if c = 't' then
        match cs1 with
        | 'r' :: 'u' :: 'e' :: r => some (Json.bool true, r)
        | _ => none
      else if c = 'f' then
        match cs1 with
        | 'a' :: 'l' :: 's' :: 'e' :: r => some (Json.bool false, r)
        | _ => none
      else if c = '"' then
        match parseStrAux cs1 with
        | some (s, r) => some (Json.str ⟨s⟩, r)
        | none => none
      else if c = '[' then
        match skipWs cs1 with
        | ']' :: r => some (Json.arr [], r)
        | _ =>
          match parseElems f cs1 with
          | some (xs, r) => some (Json.arr xs, r)
          | none => none
      else if c = '\x7b' then
        match skipWs cs1 with
        | '\x7d' :: r => some (Json.obj [], r)
        | _ =>
          match parseMembers f cs1 with
          | some (ps, r) => some (Json.obj ps, r)
          | none => none
      else if c = '-' ∨ (48 ≤ c.toNat ∧ c.toNat ≤ 57) then parseNum (c :: cs1)
      else none
termination_by structural f _ => f

/-- Parse the elements of a non-empty JSON array up to and including the
closing bracket. -/
def parseElems : ℕ → List Char → Option (List Json × List Char)
  | 0, _ => none
  | f + 1, cs =>
    match parseValue f cs with
    | none => none
    | some (v, r1) =>
      match skipWs r1 with
      | ',' :: r2 =>
        (match parseElems f r2 with
        | some (vs, r3) => some (v :: vs, r3)
        | none => none)
      | ']' :: r2 => some ([v], r2)
      | _ => none
termination_by structural f _ => f

/-- Parse the members of a non-empty JSON object up to and including the
closing brace. -/
def parseMembers : ℕ → List Char → Option (List (String × Json) × List Char)
  | 0, _ => none
  | f + 1, cs =>
    match skipWs cs with
    | '"' :: cs1 =>
      (match parseStrAux cs1 with
      | none => none
      | some (k, r1) =>
        match skipWs r1 with
        | ':' :: r2 =>
          (match parseValue f r2 with
          | none => none
          | some (v, r3) =>
            match skipWs r3 with
            | ',' :: r4 =>
              (match parseMembers f r4 with
              | some (ps, r5) => some ((⟨k⟩, v) :: ps, r5)
              | none => none)
            | '\x7d' :: r4 => some ([(⟨k⟩, v)], r4)
            | _ => none)
        | _ => none)
    | _ => none
termination_by structural f _ => f

end

/-- The value json.loads(s) yields, or none when s is not valid JSON
(the exception branch). Requires the whole input to be consumed up to
trailing whitespace. -/
def json_loads (s : String) : Option Json :=
  match parseValue (2 * s.data.length + 8) s.data with
  | some (v, r) => if skipWs r = [] then some v else none
  | none => none

/-! The extraction pipeline. -/

/-- Observable side effects of the pipeline: status line updates, progress
bar updates (recorded as the 1-indexed item number and the total the code
divides by), st.warning and st.error diagnostics, and the outbound request
to the completion service carrying the resume text. -/
inductive Event where
  | status : String → Event
  | progress : ℕ → ℕ → Event
  | warn : String → Event
  | errorMsg : String → Event
  | serviceCall : String → Event
deriving DecidableEq

/-- Whether an event is a progress-bar update. -/
def Event.isProgress : Event → Bool
  | .progress _ _ => true
  | _ => false

/-- Whether an event is an st.warning. -/
def Event.isWarn : Event → Bool
  | .warn _ => true
  | _ => false

/-- Whether an event is an outbound service call. -/
def Event.isServiceCall : Event → Bool
  | .serviceCall _ => true
  | _ => false

/-- The configured OpenAI client handle: for a given resume text, one
chat.completions.create call either raises (network error, authentication
error, missing function_call — the message is the exception text) or yields
the raw function_call.arguments string. -/
abbrev Client := String → Except String String

/-- Python whitespace, the characters str.strip with no argument removes:
exactly those with str.isspace() true — HT..CR, FS..US, space, NEL, NBSP,
Ogham space mark, the U+2000..U+200A spaces, line and paragraph separators,
narrow no-break space, medium mathematical space and ideographic space. -/
def isPyWs (c : Char) : Bool :=
  (9 ≤ c.toNat ∧ c.toNat ≤ 13) ∨ (28 ≤ c.toNat ∧ c.toNat ≤ 31) ∨ c.toNat = 32 ∨
  c.toNat = 133 ∨ c.toNat = 160 ∨ c.toNat = 5760 ∨
  (8192 ≤ c.toNat ∧ c.toNat ≤ 8202) ∨ c.toNat = 8232 ∨ c.toNat = 8233 ∨
  c.toNat = 8239 ∨ c.toNat = 8287 ∨ c.toNat = 12288

/-- Truthiness of text.strip(): true exactly when the string has a
non-whitespace character. -/
def hasContent (s : String) : Bool := s.data.any (fun c => !isPyWs c)

/-- One uploaded PDF, abstracted to its name and the behaviour of the two
extraction libraries on it: pdfplumber yields per-page optional texts (or
raises, carrying the exception text), and PyPDF2's per-page texts depend on
the stream offset the file object is at when PdfReader reads it. -/
structure PdfFile where
  name : String
  plumberPages : Except String (List (Option String))
  pypdfPages : ℕ → Except String (List String)

/-- Concatenation of pdfplumber page texts (method 1): each truthy page
text is appended followed by a newline. -/
def plumberConcat (pages : List (Option String)) : String :=
  pages.foldl
    (fun acc p => match p with
      | some t => if t ≠ "" then acc ++ t ++ "\n" else acc
      | none => acc) ""

/-- Concatenation of PyPDF2 page texts (method 2): every page text is
appended followed by a newline, with no emptiness check. -/
def pypdfConcat (ps : List String) : String :=
  ps.foldl (fun acc t => acc ++ t ++ "\n") ""

/-- extract_text_from_pdf: try pdfplumber first; if its concatenation has
no non-whitespace content, seek the stream back to offset 0 and return the
PyPDF2 concatenation unconditionally. Any exception is caught, reported via
st.error, and turns the result into the empty string. -/
def extract_text_from_pdf (f : PdfFile) : String × List Event :=
  match f.plumberPages with
  | .error e => ("", [.errorMsg ("Error extracting text from PDF: " ++ e)])
  | .ok pages =>
    let text := plumberConcat pages
    if hasContent text then (text, [])
    else
      match f.pypdfPages 0 with
      | .error e => ("", [.errorMsg ("Error extracting text from PDF: " ++ e)])
      | .ok ps => (pypdfConcat ps, [])

/-- extract_applicant_details: one request to the completion service with
the fixed extract_details function schema, then json.loads on the returned
function_call.arguments. Any exception (service failure or malformed
payload) is caught, reported via st.error, and yields None. -/
def extract_applicant_details (resume_text : String) (client : Client) :
    Option Json × List Event :=
  match client resume_text with
  | .error e =>
    (none, [.serviceCall resume_text, .errorMsg ("Error extracting details: " ++ e)])
  | .ok args =>
    match json_loads args with
    | some j => (some j, [.serviceCall resume_text])
    | none =>
      (none, [.serviceCall resume_text,
        .errorMsg ("Error extracting details: invalid JSON in function_call.arguments")])

/-- process_single_resume simply delegates to extract_applicant_details. -/
def process_single_resume (resume_text : String) (client : Client) :
    Option Json × List Event :=
  extract_applicant_details resume_text client

/-- Loop body of process_multiple_pdfs over the remaining files, where i is
the 0-based index of the next file and n the total count. The first result
component is none when the loop dies on an uncaught TypeError (item
assignment on a truthy non-dict payload); otherwise it is the list of
records appended by the loop. -/
def pmpGo (client : Client) (n : ℕ) : List PdfFile → ℕ → Option (List Json) × List Event
  | [], _ => (some [], [.status "PDF processing complete!"])
  | f :: rest, i =>
    let ev1 : Event := .status ("Processing PDF " ++ toString (i + 1) ++ " of " ++
      toString n ++ ": " ++ f.name)
    let ev2 : Event := .progress (i + 1) n
    let ex := extract_text_from_pdf f
    if hasContent ex.1 then
      let d := extract_applicant_details ex.1 client
      match d.1 with
      | some j =>
        if j.truthy then
          match j.trySetItem "source_file" (.str f.name) with
          | some j' =>
            let k := pmpGo client n rest (i + 1)
            (k.1.map (j' :: ·), ev1 :: ev2 :: (ex.2 ++ d.2 ++ k.2))
          | none => (none, ev1 :: ev2 :: (ex.2 ++ d.2))
        else
          let k := pmpGo client n rest (i + 1)
          (k.1, ev1 :: ev2 :: (ex.2 ++ d.2 ++ k.2))
      | none =>
        let k := pmpGo client n rest (i + 1)
        (k.1, ev1 :: ev2 :: (ex.2 ++ d.2 ++ k.2))
    else
      let k := pmpGo client n rest (i + 1)
      (k.1, ev1 :: ev2 :: (ex.2 ++
        [.warn ("⚠️ Could not extract text from " ++ f.name)] ++ k.2))

/-- process_multiple_pdfs: iterate the uploaded files in order; for each,
update the status line and progress bar, extract text, skip the file with a
warning when the text has no content, otherwise call the detail extractor
and, on a truthy record, tag it with its source file name and append it. -/
def process_multiple_pdfs (pdf_files : List PdfFile) (client : Client) :
    Option (List Json) × List Event :=
  pmpGo client pdf_files.length pdf_files 0

/-- The uploaded CSV, abstracted to its column names and the values of the
Resume_str column. -/
structure DataFrame where
  columns : List String
  resumeCol : List String

/-- Loop body of process_resumes_from_dataframe over the selected rows. -/
def prdGo (client : Client) (n : ℕ) : List String → ℕ → List Json × List Event
  | [], _ => ([], [.status "Processing complete!"])
  | r :: rest, i =>
    let ev1 : Event := .status ("Processing resume " ++ toString (i + 1) ++ " of " ++
      toString n ++ "...")
    let ev2 : Event := .progress (i + 1) n
    let d := extract_applicant_details r client
    let k := prdGo client n rest (i + 1)
    (match d.1 with
      | some j => if j.truthy then j :: k.1 else k.1
      | none => k.1,
      ev1 :: ev2 :: (d.2 ++ k.2))

/-- process_resumes_from_dataframe: abort with an st.error and an empty
result when the Resume_str column is absent; otherwise process the first
num_rows rows, calling the detail extractor on every selected row (with no
emptiness check) and appending each truthy record. -/
def process_resumes_from_dataframe (df : DataFrame) (client : Client) (num_rows : ℕ) :
    List Json × List Event :=
  if "Resume_str" ∈ df.columns then
    let resumes := df.resumeCol.take num_rows
    prdGo client resumes.length resumes 0
  else ([], [.errorMsg ("The column \x27Resume_str\x27 was not found in the CSV file.")])

/-- Events of the attempt on one PDF, after its status and progress updates:
the extraction diagnostics, then either the service-call events or, when the
extracted text has no content, the warning that skips the file. -/
def pdfAttemptEvents (client : Client) (f : PdfFile) : List Event :=
  (extract_text_from_pdf f).2 ++
    (if hasContent (extract_text_from_pdf f).1 then
      (extract_applicant_details (extract_text_from_pdf f).1 client).2
    else [.warn ("⚠️ Could not extract text from " ++ f.name)])

/-- Full event block of the i-th PDF of a batch of n. -/
def pdfItemEvents (client : Client) (n i : ℕ) (f : PdfFile) : List Event :=
  .status ("Processing PDF " ++ toString (i + 1) ++ " of " ++ toString n ++ ": " ++ f.name) ::
    .progress (i + 1) n :: pdfAttemptEvents client f

/-- Events of the attempt on one CSV row: the detail extractor is invoked
unconditionally. -/
def dfAttemptEvents (client : Client) (r : String) : List Event :=
  (extract_applicant_details r client).2

/-- Full event block of the i-th selected row of a CSV batch of n. -/
def dfItemEvents (client : Client) (n i : ℕ) (r : String) : List Event :=
  .status ("Processing resume " ++ toString (i + 1) ++ " of " ++ toString n ++ "...") ::
    .progress (i + 1) n :: dfAttemptEvents client r

/-! Result tab: summary statistics and session state. -/

/-- The experience_years column of the results table: numeric values of the
experience_years field, in record order (records without a numeric value
contribute nothing, as pandas mean skips missing cells). -/
def expValues (records : List Json) : List ℚ :=
  records.filterMap (fun r =>
    match r.getKey "experience_years" with
    | some (Json.num q) => some q
    | _ => none)

/-- results_df[experience_years].mean(): the arithmetic mean of the numeric
experience values. -/
def avg_experience (records : List Json) : ℚ :=
  (expValues records).sum / (expValues records).length

/-- len(results_df): the total number of stored records. -/
def total_candidates (records : List Json) : ℕ := records.length

/-- The all_skills accumulator: the concatenation of every skills field that
is a list, in record order (isinstance(skills_list, list) filters the rest). -/
def allSkills (records : List Json) : List Json :=
  records.flatMap (fun r =>
    match r.getKey "skills" with
    | some (Json.arr xs) => xs
    | _ => [])

/-- Number of occurrences of x in l under Python equality (list.count). -/
def countB (l : List Json) (x : Json) : ℕ :=
  (l.filter (fun y => Json.beq y x)).length

/-- Python max(iterable, key=...): scan the iterable keeping the current
best, replacing it only on a strictly larger key, so the first maximal
element encountered wins ties. -/
def pyMax (key : Json → ℕ) : List Json → Option Json
  | [] => none
  | x :: xs => some (xs.foldl (fun best y => if key best < key y then y else best) x)

/-- max(set(all_skills), key=all_skills.count), where s is the iteration
order of the Python set set(all_skills) (its elements without duplicates,
in an order the language leaves unspecified). -/
def most_common_skill (records : List Json) (s : List Json) : Option Json :=
  pyMax (countB (allSkills records)) s

/-- The session state the app keeps in st.session_state. -/
structure SessionState where
  processed_data : List Json
  api_key_set : Bool

/-- The Clear Results button: st.session_state.processed_data = []. -/
def clear_results (s : SessionState) : SessionState :=
  { s with processed_data := [] }

mutual

/-- Terminating-decimal check on every number in a JSON value: exactly the
numbers a finite decimal (in particular any Python float) can denote. -/
def decOkB : Json → Bool
  | .num q => (pow10Exp q.den).isSome
  | .arr xs => decOkListB xs
  | .obj ps => decOkKVsB ps
  | _ => true

/-- decOkB on every element of an array. -/
def decOkListB : List Json → Bool
  | [] => true
  | x :: xs => decOkB x && decOkListB xs

/-- decOkB on every member value of an object. -/
def decOkKVsB : List (String × Json) → Bool
  | [] => true
  | (_, v) :: ps => decOkB v && decOkKVsB ps

end

/-- Characters that terminate a number literal: not a digit, not a dot. -/
def NumSafe (cs : List Char) : Prop :=
  ∀ c, cs.head? = some c → (c.toNat < 48 ∨ 57 < c.toNat) ∧ c ≠ '.'

mutual

/-- Structural size of a JSON value, used to budget parser fuel. -/
def Json.size : Json → ℕ
  | .arr xs => sizeList xs + 1
  | .obj ps => sizeKVs ps + 1
  | _ => 0

/-- Total size of the elements of an array. -/
def sizeList : List Json → ℕ
  | [] => 0
  | x :: xs => Json.size x + sizeList xs + 1

/-- Total size of the member values of an object. -/
def sizeKVs : List (String × Json) → ℕ
  | [] => 0
  | (_, v) :: ps => Json.size v + sizeKVs ps + 1

end

/-! Theorems. -/

/-- C10: clearing the results replaces the stored collection with the empty
collection and leaves every other piece of session state, in particular the
api_key_set flag, unchanged. -/
theorem C10_clear_results_frame (s : SessionState) :
    (clear_results s).processed_data = [] ∧
      (clear_results s).api_key_set = s.api_key_set :=
  ⟨rfl, rfl⟩

/-- C7: when the Resume_str column is absent, process_resumes_from_dataframe
reports the configuration error, returns zero records, and emits no service
call and no per-row progress: the batch never starts. -/
theorem C7_missing_column_aborts (df : DataFrame) (client : Client) (num_rows : ℕ)
    (h : "Resume_str" ∉ df.columns) :
    process_resumes_from_dataframe df client num_rows =
      ([], [Event.errorMsg ("The column \x27Resume_str\x27 was not found in the CSV file.")]) ∧
      (process_resumes_from_dataframe df client num_rows).1 = [] ∧
      (∀ e ∈ (process_resumes_from_dataframe df client num_rows).2,
        e.isServiceCall = false ∧ e.isProgress = false) := by
  have heq : process_resumes_from_dataframe df client num_rows =
      ([], [Event.errorMsg ("The column \x27Resume_str\x27 was not found in the CSV file.")]) := by
    unfold process_resumes_from_dataframe
    rw [if_neg h]
  refine ⟨heq, by rw [heq], ?_⟩
  intro e he
  rw [heq] at he
  simp only [List.mem_singleton] at he
  subst he
  exact ⟨rfl, rfl⟩

/-- Witness for C7 at a concrete dataframe lacking the Resume_str column. -/
theorem C7_missing_column_aborts_witness :
    (process_resumes_from_dataframe ⟨["Resume", "Category"], ["text"]⟩
        (fun _ => Except.error "unreachable") 5).1 = [] :=
  (C7_missing_column_aborts ⟨["Resume", "Category"], ["text"]⟩
    (fun _ => Except.error "unreachable") 5 (by decide)).2.1

/-- C2 (amended): when the pdfplumber concatenation has no non-whitespace
content, extract_text_from_pdf invokes the PyPDF2 fallback on the stream
reset to offset 0 and returns the fallback concatenation unchanged — in
particular it returns it when it has non-whitespace content, but when the
fallback also yields only whitespace the function returns that whitespace
string itself, which is the empty string only when the fallback raises or
produces no characters. -/
theorem C2_fallback_output (f : PdfFile) (pages : List (Option String))
    (hp : f.plumberPages = Except.ok pages)
    (hws : hasContent (plumberConcat pages) = false) :
    (extract_text_from_pdf f).1 =
      (match f.pypdfPages 0 with
        | Except.ok ps => pypdfConcat ps
        | Except.error _ => "") ∧
      (∀ ps, f.pypdfPages 0 = Except.ok ps →
        (extract_text_from_pdf f).1 = pypdfConcat ps) := by
  cases h0 : f.pypdfPages 0 with
  | error e =>
    constructor
    · simp [extract_text_from_pdf, hp, hws, h0]
    · intro ps hps
      exact absurd hps (by simp)
  | ok ps =>
    constructor
    · simp [extract_text_from_pdf, hp, hws, h0]
    · intro ps' hps'
      have hee : ps = ps' := by injection hps'
      subst hee
      simp [extract_text_from_pdf, hp, hws, h0]

/-- Witness for C2 (amended) at a concrete PDF whose primary strategy sees
one whitespace-only page and whose fallback yields one page of text. -/
theorem C2_fallback_output_witness :
    (extract_text_from_pdf ⟨"w.pdf", Except.ok [some " "], fun _ => Except.ok ["hi"]⟩).1 =
      pypdfConcat ["hi"] :=
  (C2_fallback_output ⟨"w.pdf", Except.ok [some " "], fun _ => Except.ok ["hi"]⟩
    [some " "] rfl (by decide)).2 ["hi"] rfl

/-- Looking up the key just set by setKey yields the new value. -/
lemma lookupKey_setKey_self (kvs : List (String × Json)) (key : String) (v : Json) :
    lookupKey (setKey kvs key v) key = some v := by
  induction kvs with
  | nil => simp [setKey, lookupKey]
  | cons p rest ih =>
    obtain ⟨k, w⟩ := p
    by_cases h : k = key
    · simp [setKey, h, lookupKey]
    · simp [setKey, h, lookupKey, ih]

/-- setKey leaves the lookup of every other key unchanged. -/
lemma lookupKey_setKey_ne (kvs : List (String × Json)) (key k : String) (v : Json)
    (h : k ≠ key) : lookupKey (setKey kvs key v) k = lookupKey kvs k := by
  induction kvs with
  | nil => simp [setKey, lookupKey, Ne.symm h]
  | cons p rest ih =>
    obtain ⟨k', w⟩ := p
    by_cases h' : k' = key
    · subst h'
      simp [setKey, lookupKey, Ne.symm h]
    · simp [setKey, h', lookupKey, ih]

/-- A successful service call with a parseable payload makes the detail
extractor return exactly that payload. -/
lemma ead_fst_of_ok (t args : String) (client : Client) (j : Json)
    (hc : client t = Except.ok args) (hj : json_loads args = some j) :
    (extract_applicant_details t client).1 = some j := by
  simp [extract_applicant_details, hc, hj]

/-- Non-empty objects are truthy. -/
lemma obj_truthy_of_ne (kvs : List (String × Json)) (h : kvs ≠ []) :
    (Json.obj kvs).truthy = true := by
  cases kvs with
  | nil => exact absurd rfl h
  | cons p rest => simp [Json.truthy, List.isEmpty]

/-- Loop invariant for process_multiple_pdfs: when the service answers every
document with non-empty text with a parseable non-empty object, the loop
returns (without a TypeError) the records of exactly the documents with
non-empty text, in order, each with its source_file tag. -/
lemma pmpGo_results (client : Client) (n : ℕ) (pdfs : List PdfFile) :
    ∀ (i : ℕ),
    (∀ f ∈ pdfs, hasContent (extract_text_from_pdf f).1 = true →
      ∃ s kvs, client (extract_text_from_pdf f).1 = Except.ok s ∧
        json_loads s = some (Json.obj kvs) ∧ kvs ≠ []) →
    ∃ res, (pmpGo client n pdfs i).1 = some res ∧
      res.map (fun j => j.getKey "source_file") =
        (pdfs.filter (fun f => hasContent (extract_text_from_pdf f).1)).map
          (fun f => some (Json.str f.name)) := by
  induction pdfs with
  | nil => intro i H; exact ⟨[], rfl, rfl⟩
  | cons f rest ih =>
    intro i H
    obtain ⟨res, hres, hmap⟩ := ih (i + 1) (fun g hg hcg => H g (List.mem_cons_of_mem f hg) hcg)
    by_cases hc : hasContent (extract_text_from_pdf f).1 = true
    · obtain ⟨s, kvs, hcl, hjl, hne⟩ := H f (List.mem_cons_self f rest) hc
      have head : (extract_applicant_details (extract_text_from_pdf f).1 client).1 =
          some (Json.obj kvs) := ead_fst_of_ok _ s client _ hcl hjl
      refine ⟨Json.obj (setKey kvs "source_file" (Json.str f.name)) :: res, ?_, ?_⟩
      · unfold pmpGo
        simp only [hc, if_true, head, obj_truthy_of_ne kvs hne, Json.trySetItem, hres]
        rfl
      · have hkey : (Json.obj (setKey kvs "source_file" (Json.str f.name))).getKey
            "source_file" = some (Json.str f.name) := by
          simp [Json.getKey, lookupKey_setKey_self]
        simp only [List.map_cons, List.filter_cons, hc, if_true, hkey]
        rw [hmap]
    · have hc' : hasContent (extract_text_from_pdf f).1 = false := by
        revert hc; cases hasContent (extract_text_from_pdf f).1 <;> simp
      refine ⟨res, ?_, ?_⟩
      · unfold pmpGo
        simp only [hc', Bool.false_eq_true, if_false, hres]
      · simp only [List.filter_cons, hc', Bool.false_eq_true, if_false, hmap]

/-- C1: for a PDF batch in which exactly K documents fail text extraction
(whitespace-only extracted text) and the service succeeds (a parseable,
non-empty structured payload) on every remaining document, the orchestrator
returns exactly (N − K) records, in input order; the list of their
source_file fields is exactly the list of names of the surviving documents
in input order. -/
theorem C1_pdf_batch_shape (pdfs : List PdfFile) (client : Client) (K : ℕ)
    (hK : K = (pdfs.filter (fun f => !(hasContent (extract_text_from_pdf f).1))).length)
    (Hok : ∀ f ∈ pdfs, hasContent (extract_text_from_pdf f).1 = true →
      ∃ s kvs, client (extract_text_from_pdf f).1 = Except.ok s ∧
        json_loads s = some (Json.obj kvs) ∧ kvs ≠ []) :
    ∃ res, (process_multiple_pdfs pdfs client).1 = some res ∧
      res.length = pdfs.length - K ∧
      res.map (fun j => j.getKey "source_file") =
        (pdfs.filter (fun f => hasContent (extract_text_from_pdf f).1)).map
          (fun f => some (Json.str f.name)) := by
  obtain ⟨res, h1, h2⟩ := pmpGo_results client pdfs.length pdfs 0 Hok
  refine ⟨res, h1, ?_, h2⟩
  have hlen : res.length =
      (pdfs.filter (fun f => hasContent (extract_text_from_pdf f).1)).length := by
    have := congrArg List.length h2
    simpa using this
  have hsplit : pdfs.length =
      (pdfs.filter (fun f => hasContent (extract_text_from_pdf f).1)).length + K := by
    rw [hK]
    simpa using List.length_eq_length_filter_add
      (l := pdfs) (fun f => hasContent (extract_text_from_pdf f).1)
  omega

/-- Witness for C1 on a batch of three documents whose second fails
extraction, with a stubbed service returning a fixed object. -/
theorem C1_pdf_batch_shape_witness :
    ∃ res, (process_multiple_pdfs
        [⟨"a.pdf", Except.ok [some "hello"], fun _ => Except.ok []⟩,
          ⟨"b.pdf", Except.ok [some " "], fun _ => Except.ok [""]⟩,
          ⟨"c.pdf", Except.ok [some "world"], fun _ => Except.ok []⟩]
        (fun _ => Except.ok "\x7b\"a\": 1\x7d")).1 = some res ∧
      res.length = 3 - 1 ∧
      res.map (fun j => j.getKey "source_file") =
        ([⟨"a.pdf", Except.ok [some "hello"], fun _ => Except.ok []⟩,
          ⟨"b.pdf", Except.ok [some " "], fun _ => Except.ok [""]⟩,
          ⟨"c.pdf", Except.ok [some "world"], fun _ => Except.ok []⟩].filter
            (fun f : PdfFile => hasContent (extract_text_from_pdf f).1)).map
          (fun f => some (Json.str f.name)) := by
  refine C1_pdf_batch_shape _ _ 1 (by decide) ?_
  intro f hf hc
  simp only [List.mem_cons, List.not_mem_nil, or_false] at hf
  rcases hf with rfl | rfl | rfl
  · exact ⟨"\x7b\"a\": 1\x7d", [("a", Json.num 1)], rfl, by rfl, List.cons_ne_nil _ _⟩
  · exact absurd hc (by decide)
  · exact ⟨"\x7b\"a\": 1\x7d", [("a", Json.num 1)], rfl, by rfl, List.cons_ne_nil _ _⟩

/-- A schema-conforming record is a non-empty object. -/
lemma hasRequired_obj (j : Json) (h : hasRequiredFields j = true) :
    ∃ kvs, j = Json.obj kvs ∧ kvs ≠ [] := by
  cases j with
  | obj kvs =>
    refine ⟨kvs, rfl, ?_⟩
    rintro rfl
    simp [hasRequiredFields, Json.getKey, lookupKey] at h
  | null => simp [hasRequiredFields, Json.getKey] at h
  | bool b => simp [hasRequiredFields, Json.getKey] at h
  | num q => simp [hasRequiredFields, Json.getKey] at h
  | str s => simp [hasRequiredFields, Json.getKey] at h
  | arr xs => simp [hasRequiredFields, Json.getKey] at h

/-- Tagging a conforming record with source_file keeps it conforming. -/
lemma hasRequired_setItem (j j' v : Json)
    (h : hasRequiredFields j = true) (hs : j.trySetItem "source_file" v = some j') :
    hasRequiredFields j' = true := by
  obtain ⟨kvs, rfl, -⟩ := hasRequired_obj j h
  simp only [Json.trySetItem, Option.some_inj] at hs
  subst hs
  simp only [hasRequiredFields, Json.getKey] at h ⊢
  rw [lookupKey_setKey_ne kvs _ _ _ (by decide), lookupKey_setKey_ne kvs _ _ _ (by decide),
    lookupKey_setKey_ne kvs _ _ _ (by decide), lookupKey_setKey_ne kvs _ _ _ (by decide)]
  exact h

/-- The payload a successful detail extraction returns came from a
successful service call with a parseable arguments string. -/
lemma ead_fst_inv (t : String) (client : Client) (j : Json)
    (h : (extract_applicant_details t client).1 = some j) :
    ∃ s, client t = Except.ok s ∧ json_loads s = some j := by
  cases hcl : client t with
  | error e =>
    have hnone : (extract_applicant_details t client).1 = none := by
      simp [extract_applicant_details, hcl]
    rw [hnone] at h
    exact Option.noConfusion h
  | ok args =>
    cases hjl : json_loads args with
    | none =>
      have hnone : (extract_applicant_details t client).1 = none := by
        simp [extract_applicant_details, hcl, hjl]
      rw [hnone] at h
      exact Option.noConfusion h
    | some jj =>
      have hsome : (extract_applicant_details t client).1 = some jj := by
        simp [extract_applicant_details, hcl, hjl]
      rw [hsome] at h
      obtain rfl := Option.some_inj.mp h
      exact ⟨args, rfl, hjl⟩

/-- Under a schema-conforming service, the PDF batch loop cannot raise and
every record it returns is conforming. -/
lemma pmpGo_required (client : Client) (n : ℕ)
    (Hconf : ∀ t s j, client t = Except.ok s → json_loads s = some j →
      hasRequiredFields j = true) (pdfs : List PdfFile) :
    ∀ (i : ℕ), ∃ res, (pmpGo client n pdfs i).1 = some res ∧
      ∀ j ∈ res, hasRequiredFields j = true := by
  induction pdfs with
  | nil => intro i; exact ⟨[], rfl, by simp⟩
  | cons f rest ih =>
    intro i
    obtain ⟨res, hres, hreq⟩ := ih (i + 1)
    by_cases hc : hasContent (extract_text_from_pdf f).1 = true
    · cases hd : (extract_applicant_details (extract_text_from_pdf f).1 client).1 with
      | none =>
        refine ⟨res, ?_, hreq⟩
        unfold pmpGo
        simp only [hc, if_true, hd, hres]
      | some j0 =>
        obtain ⟨s, hcl, hjl⟩ := ead_fst_inv _ client j0 hd
        have hj0 : hasRequiredFields j0 = true := Hconf _ s j0 hcl hjl
        obtain ⟨kvs, rfl, hne⟩ := hasRequired_obj j0 hj0
        have htr : (Json.obj kvs).truthy = true := by
          cases kvs with
          | nil => exact absurd rfl hne
          | cons p ps => simp [Json.truthy, List.isEmpty]
        refine ⟨Json.obj (setKey kvs "source_file" (Json.str f.name)) :: res, ?_, ?_⟩
        · unfold pmpGo
          simp only [hc, if_true, hd, htr, Json.trySetItem, hres]
          rfl
        · intro j hj
          rcases List.mem_cons.mp hj with rfl | hj'
          · exact hasRequired_setItem (Json.obj kvs) _ (Json.str f.name) hj0 rfl
          · exact hreq j hj'
    · have hc' : hasContent (extract_text_from_pdf f).1 = false := by
        revert hc; cases hasContent (extract_text_from_pdf f).1 <;> simp
      refine ⟨res, ?_, hreq⟩
      unfold pmpGo
      simp only [hc', Bool.false_eq_true, if_false, hres]

/-- Under a schema-conforming service, every record of the tabular loop is
conforming. -/
lemma prdGo_required (client : Client) (n : ℕ)
    (Hconf : ∀ t s j, client t = Except.ok s → json_loads s = some j →
      hasRequiredFields j = true) (rows : List String) :
    ∀ (i : ℕ), ∀ j ∈ (prdGo client n rows i).1, hasRequiredFields j = true := by
  induction rows with
  | nil => intro i j hj; simp [prdGo] at hj
  | cons r rest ih =>
    intro i j hj
    unfold prdGo at hj
    simp only at hj
    cases hd : (extract_applicant_details r client).1 with
    | none =>
      simp only [hd] at hj
      exact ih (i + 1) j hj
    | some j0 =>
      simp only [hd] at hj
      by_cases ht : j0.truthy = true
      · rw [if_pos ht] at hj
        rcases List.mem_cons.mp hj with rfl | hj'
        · obtain ⟨s, hcl, hjl⟩ := ead_fst_inv _ client j hd
          exact Hconf _ s j hcl hjl
        · exact ih (i + 1) j hj'
      · rw [if_neg ht] at hj
        exact ih (i + 1) j hj

/-- C3 (amended): provided every payload the service returns parses to a
record conforming to the declared schema (all four required fields present),
every record any storing path produces — the single-text path, the single-PDF
path with its source_file tag, the PDF batch, and the tabular batch — carries
all four required fields; and those batches cannot raise. -/
theorem C3_required_fields (client : Client)
    (Hconf : ∀ t s j, client t = Except.ok s → json_loads s = some j →
      hasRequiredFields j = true) :
    (∀ t j, (process_single_resume t client).1 = some j → hasRequiredFields j = true) ∧
    (∀ t j j' nm, (process_single_resume t client).1 = some j →
      j.trySetItem "source_file" (Json.str nm) = some j' → hasRequiredFields j' = true) ∧
    (∀ pdfs, ∃ res, (process_multiple_pdfs pdfs client).1 = some res ∧
      ∀ j ∈ res, hasRequiredFields j = true) ∧
    (∀ df num_rows, ∀ j ∈ (process_resumes_from_dataframe df client num_rows).1,
      hasRequiredFields j = true) := by
  have hsingle : ∀ t j, (process_single_resume t client).1 = some j →
      hasRequiredFields j = true := by
    intro t j h
    obtain ⟨s, hcl, hjl⟩ := ead_fst_inv t client j h
    exact Hconf t s j hcl hjl
  refine ⟨hsingle, ?_, ?_, ?_⟩
  · intro t j j' nm h hs
    exact hasRequired_setItem j j' (Json.str nm) (hsingle t j h) hs
  · intro pdfs
    exact pmpGo_required client pdfs.length Hconf pdfs 0
  · intro df num_rows j hj
    unfold process_resumes_from_dataframe at hj
    by_cases hcol : "Resume_str" ∈ df.columns
    · rw [if_pos hcol] at hj
      exact prdGo_required client _ Hconf _ 0 j hj
    · rw [if_neg hcol] at hj
      simp at hj

/-- Witness for C3 (amended): the record a one-row tabular batch with a
conforming stubbed service stores carries all four required fields. -/
theorem C3_required_fields_witness :
    hasRequiredFields (Json.obj [("name", Json.str "A"), ("email", Json.str "e"), ("skills", Json.arr []),
      ("experience_years", Json.num 3)]) = true := by
  have hconf : ∀ t s j,
      (fun (_ : String) => (Except.ok "\x7b\"name\": \"A\", \"email\": \"e\", \"skills\": [], \"experience_years\": 3\x7d" : Except String String)) t = Except.ok s →
      json_loads s = some j → hasRequiredFields j = true := by
    intro t s j h1 h2
    obtain rfl : "\x7b\"name\": \"A\", \"email\": \"e\", \"skills\": [], \"experience_years\": 3\x7d" = s := by
      injection h1
    have hev : json_loads "\x7b\"name\": \"A\", \"email\": \"e\", \"skills\": [], \"experience_years\": 3\x7d" =
        some (Json.obj [("name", Json.str "A"), ("email", Json.str "e"), ("skills", Json.arr []),
      ("experience_years", Json.num 3)]) := by rfl
    rw [hev] at h2
    obtain rfl := Option.some_inj.mp h2
    decide
  have hres : (process_resumes_from_dataframe ⟨["Resume_str"], ["some resume"]⟩
      (fun _ => Except.ok "\x7b\"name\": \"A\", \"email\": \"e\", \"skills\": [], \"experience_years\": 3\x7d") 1).1 =
      [(Json.obj [("name", Json.str "A"), ("email", Json.str "e"), ("skills", Json.arr []),
      ("experience_years", Json.num 3)])] := rfl
  exact (C3_required_fields
      (fun _ => Except.ok "\x7b\"name\": \"A\", \"email\": \"e\", \"skills\": [], \"experience_years\": 3\x7d") hconf).2.2.2
    ⟨["Resume_str"], ["some resume"]⟩ 1 (Json.obj [("name", Json.str "A"), ("email", Json.str "e"), ("skills", Json.arr []),
      ("experience_years", Json.num 3)])
    (hres ▸ List.mem_cons_self _ _)

/-- C3 counterexample: the code performs no schema validation, so a service
payload that is a valid-JSON object missing email, skills and
experience_years is truthy, is stored by the tabular batch, and the stored
record lacks the email field. -/
theorem C3_counterexample :
    (process_resumes_from_dataframe ⟨["Resume_str"], ["some resume text"]⟩
        (fun _ => Except.ok "\x7b\"name\": \"A\"\x7d") 1).1 =
      [Json.obj [("name", Json.str "A")]] ∧
    (Json.obj [("name", Json.str "A")]).getKey "email" = none ∧
    hasRequiredFields (Json.obj [("name", Json.str "A")]) = false := by
  exact ⟨by rfl, by rfl, by rfl⟩

/-- C6: when the service succeeds and its arguments payload parses as JSON
conforming to the schema, the detail extractor returns a record whose four
fields are exactly the payload fields; when the service raises, or the
payload is not parseable structured data, it returns the single failure
signal None (the function is total: no exception escapes). -/
theorem C6_detail_extractor (t : String) (client : Client) :
    (∀ s j, client t = Except.ok s → json_loads s = some j → hasRequiredFields j = true →
      (extract_applicant_details t client).1 = some j ∧
      ∀ k ∈ (["name", "email", "skills", "experience_years"] : List String),
        (extract_applicant_details t client).1.bind (fun r => r.getKey k) = j.getKey k) ∧
    (∀ s, client t = Except.ok s → json_loads s = none →
      (extract_applicant_details t client).1 = none) ∧
    (∀ e, client t = Except.error e → (extract_applicant_details t client).1 = none) := by
  refine ⟨?_, ?_, ?_⟩
  · intro s j hcl hjl _
    have h1 : (extract_applicant_details t client).1 = some j := by
      simp [extract_applicant_details, hcl, hjl]
    exact ⟨h1, by intro k _; rw [h1]; rfl⟩
  · intro s hcl hjl
    simp [extract_applicant_details, hcl, hjl]
  · intro e hcl
    simp [extract_applicant_details, hcl]


/-- Witness for C6: a stubbed service echoing a fixed schema-conforming
payload makes the detail extractor return exactly that record. -/
theorem C6_detail_extractor_witness :
    (extract_applicant_details "Jane Doe resume" (fun _ => Except.ok
      "\x7b\"name\": \"Jane\", \"email\": \"j@d.c\", \"skills\": [\"Py\"], \"experience_years\": 4\x7d")).1 =
      some (Json.obj [("name", Json.str "Jane"), ("email", Json.str "j@d.c"),
        ("skills", Json.arr [Json.str "Py"]), ("experience_years", Json.num 4)]) :=
  ((C6_detail_extractor "Jane Doe resume" (fun _ => Except.ok
      "\x7b\"name\": \"Jane\", \"email\": \"j@d.c\", \"skills\": [\"Py\"], \"experience_years\": 4\x7d")).1
    _ _ rfl (by rfl) (by decide)).1

/-- The full event trace of a PDF batch of n files starting at item index i:
the per-item blocks in order, then the final status line. -/
def pdfBatchTrace (client : Client) (n : ℕ) : List PdfFile → ℕ → List Event
  | [], _ => [.status "PDF processing complete!"]
  | f :: rest, i => pdfItemEvents client n i f ++ pdfBatchTrace client n rest (i + 1)

/-- The full event trace of a tabular batch. -/
def dfBatchTrace (client : Client) (n : ℕ) : List String → ℕ → List Event
  | [], _ => [.status "Processing complete!"]
  | r :: rest, i => dfItemEvents client n i r ++ dfBatchTrace client n rest (i + 1)

/-- When no truthy payload is a non-dict (so the loop cannot die on a
TypeError), the PDF batch trace is exactly the per-item blocks in order. -/
lemma pmpGo_trace (client : Client) (n : ℕ) (pdfs : List PdfFile)
    (Hobj : ∀ f ∈ pdfs, hasContent (extract_text_from_pdf f).1 = true →
      ∀ j, (extract_applicant_details (extract_text_from_pdf f).1 client).1 = some j →
        j.truthy = true → ∃ kvs, j = Json.obj kvs) :
    ∀ i, (pmpGo client n pdfs i).2 = pdfBatchTrace client n pdfs i := by
  induction pdfs with
  | nil => intro i; rfl
  | cons f rest ih =>
    intro i
    have ihr := ih (fun g hg => Hobj g (List.mem_cons_of_mem f hg)) (i + 1)
    by_cases hc : hasContent (extract_text_from_pdf f).1 = true
    · cases hd : (extract_applicant_details (extract_text_from_pdf f).1 client).1 with
      | none =>
        unfold pmpGo pdfBatchTrace pdfItemEvents pdfAttemptEvents
        simp only [hc, if_true, hd, ihr]
        simp
      | some j0 =>
        by_cases ht : j0.truthy = true
        · obtain ⟨kvs, rfl⟩ := Hobj f (List.mem_cons_self f rest) hc j0 hd ht
          unfold pmpGo pdfBatchTrace pdfItemEvents pdfAttemptEvents
          simp only [hc, if_true, hd, ht, Json.trySetItem, ihr]
          simp
        · have ht' : j0.truthy = false := by
            revert ht; cases j0.truthy <;> simp
          unfold pmpGo pdfBatchTrace pdfItemEvents pdfAttemptEvents
          simp only [hc, if_true, hd, ht', Bool.false_eq_true, if_false, ihr]
          simp
    · have hc' : hasContent (extract_text_from_pdf f).1 = false := by
        revert hc; cases hasContent (extract_text_from_pdf f).1 <;> simp
      unfold pmpGo pdfBatchTrace pdfItemEvents pdfAttemptEvents
      simp only [hc', Bool.false_eq_true, if_false, ihr]
      simp

/-- The tabular batch trace is always the per-item blocks in order. -/
lemma prdGo_trace (client : Client) (n : ℕ) (rows : List String) :
    ∀ i, (prdGo client n rows i).2 = dfBatchTrace client n rows i := by
  induction rows with
  | nil => intro i; rfl
  | cons r rest ih =>
    intro i
    unfold prdGo dfBatchTrace dfItemEvents dfAttemptEvents
    simp only [ih (i + 1)]
    simp

/-- extract_text_from_pdf only ever emits st.error diagnostics. -/
lemma extract_text_events_shape (f : PdfFile) :
    ∀ e ∈ (extract_text_from_pdf f).2, ∃ m, e = Event.errorMsg m := by
  intro e he
  unfold extract_text_from_pdf at he
  cases hp : f.plumberPages with
  | error msg =>
    rw [hp] at he
    simp only [List.mem_singleton] at he
    exact ⟨_, he⟩
  | ok pages =>
    rw [hp] at he
    by_cases hc : hasContent (plumberConcat pages) = true
    · simp only [hc, if_true] at he
      simp at he
    · have hc' : hasContent (plumberConcat pages) = false := by
        revert hc; cases hasContent (plumberConcat pages) <;> simp
      simp only [hc', Bool.false_eq_true, if_false] at he
      cases hq : f.pypdfPages 0 with
      | error msg =>
        rw [hq] at he
        simp only [List.mem_singleton] at he
        exact ⟨_, he⟩
      | ok ps =>
        rw [hq] at he
        simp at he

/-- extract_applicant_details emits the service call and, on failure, one
st.error diagnostic. -/
lemma ead_events_shape (t : String) (client : Client) :
    (extract_applicant_details t client).2 = [Event.serviceCall t] ∨
      ∃ m, (extract_applicant_details t client).2 =
        [Event.serviceCall t, Event.errorMsg m] := by
  cases hcl : client t with
  | error e =>
    exact Or.inr ⟨"Error extracting details: " ++ e, by simp [extract_applicant_details, hcl]⟩
  | ok args =>
    cases hjl : json_loads args with
    | some j => exact Or.inl (by simp [extract_applicant_details, hcl, hjl])
    | none =>
      exact Or.inr ⟨"Error extracting details: invalid JSON in function_call.arguments",
        by simp [extract_applicant_details, hcl, hjl]⟩

/-- Attempt events of a PDF item are never progress updates, and contain a
warning only when the extracted text had no content. -/
lemma pdfAttemptEvents_classes (client : Client) (f : PdfFile) :
    ∀ e ∈ pdfAttemptEvents client f, e.isProgress = false ∧
      (e.isWarn = true → hasContent (extract_text_from_pdf f).1 = false) := by
  intro e he
  unfold pdfAttemptEvents at he
  rcases List.mem_append.mp he with h1 | h2
  · obtain ⟨m, rfl⟩ := extract_text_events_shape f e h1
    exact ⟨rfl, by intro h; cases h⟩
  · by_cases hc : hasContent (extract_text_from_pdf f).1 = true
    · rw [if_pos hc] at h2
      rcases ead_events_shape (extract_text_from_pdf f).1 client with hs | ⟨m, hs⟩ <;>
        rw [hs] at h2
      · simp only [List.mem_singleton] at h2
        subst h2
        exact ⟨rfl, by intro h; cases h⟩
      · rcases List.mem_cons.mp h2 with rfl | h3
        · exact ⟨rfl, by intro h; cases h⟩
        · simp only [List.mem_singleton] at h3
          subst h3
          exact ⟨rfl, by intro h; cases h⟩
    · have hc' : hasContent (extract_text_from_pdf f).1 = false := by
        revert hc; cases hasContent (extract_text_from_pdf f).1 <;> simp
      rw [if_neg (by simp [hc'])] at h2
      simp only [List.mem_singleton] at h2
      subst h2
      exact ⟨rfl, fun _ => hc'⟩

/-- The progress updates of a PDF batch trace are exactly the 1-indexed
fractions (i+1)/n in increasing order, one per item. -/
lemma pdfBatchTrace_progress (client : Client) (n : ℕ) (pdfs : List PdfFile) :
    ∀ i, (pdfBatchTrace client n pdfs i).filter (fun e => e.isProgress) =
      (List.range' (i + 1) pdfs.length).map (fun k => Event.progress k n) := by
  induction pdfs with
  | nil => intro i; rfl
  | cons f rest ih =>
    intro i
    have hblock : (pdfItemEvents client n i f).filter (fun e => e.isProgress) =
        [Event.progress (i + 1) n] := by
      unfold pdfItemEvents
      simp only [List.filter_cons]
      have h1 : (Event.status ("Processing PDF " ++ toString (i + 1) ++ " of " ++
          toString n ++ ": " ++ f.name)).isProgress = false := rfl
      have h2 : (Event.progress (i + 1) n).isProgress = true := rfl
      rw [h1, h2]
      simp only [if_false, if_true, Bool.false_eq_true]
      have : (pdfAttemptEvents client f).filter (fun e => e.isProgress) = [] := by
        rw [List.filter_eq_nil_iff]
        intro e he
        simp [(pdfAttemptEvents_classes client f e he).1]
      rw [this]
    unfold pdfBatchTrace
    rw [List.filter_append, hblock, ih (i + 1)]
    simp only [List.length_cons]
    rw [List.range'_succ]
    simp

/-- Attempt events of a tabular item are never progress updates or warnings. -/
lemma dfAttemptEvents_classes (client : Client) (r : String) :
    ∀ e ∈ dfAttemptEvents client r, e.isProgress = false ∧ e.isWarn = false := by
  intro e he
  unfold dfAttemptEvents at he
  rcases ead_events_shape r client with hs | ⟨m, hs⟩ <;> rw [hs] at he
  · simp only [List.mem_singleton] at he
    subst he
    exact ⟨rfl, rfl⟩
  · rcases List.mem_cons.mp he with rfl | he2
    · exact ⟨rfl, rfl⟩
    · simp only [List.mem_singleton] at he2
      subst he2
      exact ⟨rfl, rfl⟩

/-- Every tabular item block contains the service call on its row text. -/
lemma dfItemEvents_serviceCall (client : Client) (n i : ℕ) (r : String) :
    Event.serviceCall r ∈ dfItemEvents client n i r := by
  unfold dfItemEvents dfAttemptEvents
  rcases ead_events_shape r client with hs | ⟨m, hs⟩ <;> rw [hs] <;> simp

/-- A tabular batch trace never contains a warning. -/
lemma dfBatchTrace_no_warn (client : Client) (n : ℕ) (rows : List String) :
    ∀ i, ∀ e ∈ dfBatchTrace client n rows i, e.isWarn = false := by
  induction rows with
  | nil =>
    intro i e he
    simp only [dfBatchTrace, List.mem_singleton] at he
    subst he
    rfl
  | cons r rest ih =>
    intro i e he
    unfold dfBatchTrace at he
    rcases List.mem_append.mp he with h1 | h2
    · unfold dfItemEvents at h1
      rcases List.mem_cons.mp h1 with rfl | h1'
      · rfl
      · rcases List.mem_cons.mp h1' with rfl | h1''
        · rfl
        · exact (dfAttemptEvents_classes client r e h1'').2
    · exact ih (i + 1) e h2

/-- The progress updates of a tabular batch trace are exactly the 1-indexed
fractions in increasing order, one per row. -/
lemma dfBatchTrace_progress (client : Client) (n : ℕ) (rows : List String) :
    ∀ i, (dfBatchTrace client n rows i).filter (fun e => e.isProgress) =
      (List.range' (i + 1) rows.length).map (fun k => Event.progress k n) := by
  induction rows with
  | nil => intro i; rfl
  | cons r rest ih =>
    intro i
    have hblock : (dfItemEvents client n i r).filter (fun e => e.isProgress) =
        [Event.progress (i + 1) n] := by
      unfold dfItemEvents
      simp only [List.filter_cons]
      have h1 : (Event.status ("Processing resume " ++ toString (i + 1) ++ " of " ++
          toString n ++ "...")).isProgress = false := rfl
      have h2 : (Event.progress (i + 1) n).isProgress = true := rfl
      rw [h1, h2]
      simp only [if_false, if_true, Bool.false_eq_true]
      have hnil : (dfAttemptEvents client r).filter (fun e => e.isProgress) = [] := by
        rw [List.filter_eq_nil_iff]
        intro e he
        simp [(dfAttemptEvents_classes client r e he).1]
      rw [hnil]
    unfold dfBatchTrace
    rw [List.filter_append, hblock, ih (i + 1)]
    simp only [List.length_cons]
    rw [List.range'_succ]
    simp

/-- A PDF item with no extracted content is skipped: its block carries the
warning and no service call. -/
lemma pdfItemEvents_skip (client : Client) (n i : ℕ) (f : PdfFile)
    (hc : hasContent (extract_text_from_pdf f).1 = false) :
    Event.warn ("⚠️ Could not extract text from " ++ f.name) ∈ pdfItemEvents client n i f ∧
      ∀ s, Event.serviceCall s ∉ pdfItemEvents client n i f := by
  constructor
  · unfold pdfItemEvents pdfAttemptEvents
    rw [if_neg (by simp [hc])]
    simp
  · intro s hs
    unfold pdfItemEvents at hs
    rcases List.mem_cons.mp hs with h | hs'
    · cases h
    · rcases List.mem_cons.mp hs' with h | hs''
      · cases h
      · unfold pdfAttemptEvents at hs''
        rw [if_neg (by simp [hc])] at hs''
        rcases List.mem_append.mp hs'' with h1 | h2
        · obtain ⟨m, hm⟩ := extract_text_events_shape f _ h1
          cases hm
        · simp only [List.mem_singleton] at h2
          cases h2

/-- A PDF item with extracted content has the detail extractor invoked on
its text. -/
lemma pdfItemEvents_attempt (client : Client) (n i : ℕ) (f : PdfFile)
    (hc : hasContent (extract_text_from_pdf f).1 = true) :
    Event.serviceCall (extract_text_from_pdf f).1 ∈ pdfItemEvents client n i f := by
  unfold pdfItemEvents pdfAttemptEvents
  rw [if_pos hc]
  rcases ead_events_shape (extract_text_from_pdf f).1 client with hs | ⟨m, hs⟩ <;>
    rw [hs] <;> simp

/-- C4 (amended): in the PDF batch orchestrator every item whose extracted
text is empty or all-whitespace is skipped with a non-fatal warning and the
Detail Extractor is not invoked for it, while every item of the batch still
contributes its block to the trace; the tabular orchestrator, however,
performs no emptiness check: it invokes the Detail Extractor on every
selected row (empty or not) and never emits a warning. -/
theorem C4_whitespace_skip (client : Client) (pdfs : List PdfFile) (df : DataFrame)
    (num_rows : ℕ)
    (Hobj : ∀ f ∈ pdfs, hasContent (extract_text_from_pdf f).1 = true →
      ∀ j, (extract_applicant_details (extract_text_from_pdf f).1 client).1 = some j →
        j.truthy = true → ∃ kvs, j = Json.obj kvs)
    (hcol : "Resume_str" ∈ df.columns) :
    ((process_multiple_pdfs pdfs client).2 = pdfBatchTrace client pdfs.length pdfs 0) ∧
    (∀ n i f, hasContent (extract_text_from_pdf f).1 = false →
      Event.warn ("⚠️ Could not extract text from " ++ f.name) ∈ pdfItemEvents client n i f ∧
        ∀ s, Event.serviceCall s ∉ pdfItemEvents client n i f) ∧
    (∀ n i f, hasContent (extract_text_from_pdf f).1 = true →
      Event.serviceCall (extract_text_from_pdf f).1 ∈ pdfItemEvents client n i f) ∧
    ((process_resumes_from_dataframe df client num_rows).2 =
      dfBatchTrace client (df.resumeCol.take num_rows).length (df.resumeCol.take num_rows) 0) ∧
    (∀ n i r, Event.serviceCall r ∈ dfItemEvents client n i r) ∧
    (∀ e ∈ (process_resumes_from_dataframe df client num_rows).2, e.isWarn = false) := by
  have hm : (process_multiple_pdfs pdfs client).2 = pdfBatchTrace client pdfs.length pdfs 0 :=
    pmpGo_trace client pdfs.length pdfs Hobj 0
  have hd : (process_resumes_from_dataframe df client num_rows).2 =
      dfBatchTrace client (df.resumeCol.take num_rows).length (df.resumeCol.take num_rows) 0 := by
    unfold process_resumes_from_dataframe
    rw [if_pos hcol]
    exact prdGo_trace client _ _ 0
  refine ⟨hm, fun n i f hc => pdfItemEvents_skip client n i f hc,
    fun n i f hc => pdfItemEvents_attempt client n i f hc, hd,
    fun n i r => dfItemEvents_serviceCall client n i r, ?_⟩
  intro e he
  rw [hd] at he
  exact dfBatchTrace_no_warn client _ _ 0 e he

/-- Witness for C4 (amended) on a one-file batch whose extraction fails. -/
theorem C4_whitespace_skip_witness :
    Event.warn ("⚠️ Could not extract text from " ++ "b.pdf") ∈
      pdfItemEvents (fun _ => Except.error "down") 1 0
        ⟨"b.pdf", Except.ok [some " "], fun _ => Except.ok [""]⟩ :=
  (((C4_whitespace_skip (fun _ => Except.error "down")
      [⟨"b.pdf", Except.ok [some " "], fun _ => Except.ok [""]⟩]
      ⟨["Resume_str"], ["row text"]⟩ 1
      (by intro f hf hc
          simp only [List.mem_singleton] at hf
          subst hf
          exact absurd hc (by decide))
      (by decide)).2.1) 1 0
    ⟨"b.pdf", Except.ok [some " "], fun _ => Except.ok [""]⟩ (by decide)).1

/-- C4 counterexample: the tabular orchestrator passes an empty row text
straight to the Detail Extractor (the service call on the empty string is in
the trace) and emits no warning, contradicting the claim that both variants
skip empty items with a warning. -/
theorem C4_counterexample :
    Event.serviceCall "" ∈ (process_resumes_from_dataframe ⟨["Resume_str"], [""]⟩
      (fun _ => Except.error "api down") 1).2 ∧
    (∀ e ∈ (process_resumes_from_dataframe ⟨["Resume_str"], [""]⟩
      (fun _ => Except.error "api down") 1).2, e.isWarn = false) ∧
    hasContent "" = false := by decide

/-- C5 counterexample: for a single-PDF batch the unique progress report
occurs strictly before the service call on that item, so the i-th progress
report does not follow the attempt on item i as claimed. -/
theorem C5_counterexample :
    ((process_multiple_pdfs [⟨"a.pdf", Except.ok [some "hello"], fun _ => Except.ok []⟩]
        (fun _ => Except.error "down")).2.indexOf (Event.progress 1 1) <
      (process_multiple_pdfs [⟨"a.pdf", Except.ok [some "hello"], fun _ => Except.ok []⟩]
        (fun _ => Except.error "down")).2.indexOf (Event.serviceCall "hello\n")) ∧
    Event.progress 1 1 ∈ (process_multiple_pdfs
      [⟨"a.pdf", Except.ok [some "hello"], fun _ => Except.ok []⟩]
      (fun _ => Except.error "down")).2 ∧
    Event.serviceCall "hello\n" ∈ (process_multiple_pdfs
      [⟨"a.pdf", Except.ok [some "hello"], fun _ => Except.ok []⟩]
      (fun _ => Except.error "down")).2 := by decide

/-- C5 (amended): both orchestrators report exactly one progress update per
item, as the monotonically increasing 1-indexed fraction (i+1)/n of the item
count, but each item's update is emitted before the attempt on that item
(right after the status line, before text extraction and any service call),
not after it. -/
theorem C5_progress_reporting (client : Client) (pdfs : List PdfFile) (df : DataFrame)
    (num_rows : ℕ)
    (Hobj : ∀ f ∈ pdfs, hasContent (extract_text_from_pdf f).1 = true →
      ∀ j, (extract_applicant_details (extract_text_from_pdf f).1 client).1 = some j →
        j.truthy = true → ∃ kvs, j = Json.obj kvs)
    (hcol : "Resume_str" ∈ df.columns) :
    ((process_multiple_pdfs pdfs client).2 = pdfBatchTrace client pdfs.length pdfs 0) ∧
    ((process_multiple_pdfs pdfs client).2.filter (fun e => e.isProgress) =
      (List.range' 1 pdfs.length).map (fun k => Event.progress k pdfs.length)) ∧
    (∀ n i f, pdfItemEvents client n i f =
      Event.status ("Processing PDF " ++ toString (i + 1) ++ " of " ++ toString n ++
        ": " ++ f.name) :: Event.progress (i + 1) n :: pdfAttemptEvents client f) ∧
    (∀ f, ∀ e ∈ pdfAttemptEvents client f, e.isProgress = false) ∧
    ((process_resumes_from_dataframe df client num_rows).2 =
      dfBatchTrace client (df.resumeCol.take num_rows).length (df.resumeCol.take num_rows) 0) ∧
    ((process_resumes_from_dataframe df client num_rows).2.filter (fun e => e.isProgress) =
      (List.range' 1 (df.resumeCol.take num_rows).length).map
        (fun k => Event.progress k (df.resumeCol.take num_rows).length)) ∧
    (∀ n i r, dfItemEvents client n i r =
      Event.status ("Processing resume " ++ toString (i + 1) ++ " of " ++ toString n ++
        "...") :: Event.progress (i + 1) n :: dfAttemptEvents client r) ∧
    (∀ r, ∀ e ∈ dfAttemptEvents client r, e.isProgress = false) := by
  have hm : (process_multiple_pdfs pdfs client).2 = pdfBatchTrace client pdfs.length pdfs 0 :=
    pmpGo_trace client pdfs.length pdfs Hobj 0
  have hd : (process_resumes_from_dataframe df client num_rows).2 =
      dfBatchTrace client (df.resumeCol.take num_rows).length (df.resumeCol.take num_rows) 0 := by
    unfold process_resumes_from_dataframe
    rw [if_pos hcol]
    exact prdGo_trace client _ _ 0
  refine ⟨hm, ?_, fun n i f => rfl, fun f e he => (pdfAttemptEvents_classes client f e he).1,
    hd, ?_, fun n i r => rfl, fun r e he => (dfAttemptEvents_classes client r e he).1⟩
  · rw [hm]
    simpa using pdfBatchTrace_progress client pdfs.length pdfs 0
  · rw [hd]
    simpa using dfBatchTrace_progress client (df.resumeCol.take num_rows).length
      (df.resumeCol.take num_rows) 0

/-- Witness for C5 (amended) on a two-file batch with a failing service. -/
theorem C5_progress_reporting_witness :
    (process_multiple_pdfs
        [⟨"a.pdf", Except.ok [some "hello"], fun _ => Except.ok []⟩,
          ⟨"c.pdf", Except.ok [some "world"], fun _ => Except.ok []⟩]
        (fun _ => Except.error "down")).2.filter (fun e => e.isProgress) =
      (List.range' 1 2).map (fun k => Event.progress k 2) :=
  (C5_progress_reporting (fun _ => Except.error "down")
    [⟨"a.pdf", Except.ok [some "hello"], fun _ => Except.ok []⟩,
      ⟨"c.pdf", Except.ok [some "world"], fun _ => Except.ok []⟩]
    ⟨["Resume_str"], []⟩ 1
    (by intro f hf hc j hj ht
        simp [extract_applicant_details] at hj)
    (by decide)).2.1

/-- Python max with a key function: the fold keeps the first element whose
key is maximal; the result splits the list into a strict-smaller prefix,
the winner, and a suffix, and dominates every element. -/
lemma foldl_max_spec (key : Json → ℕ) (xs : List Json) :
    ∀ x, ∃ s₁ s₂,
      x :: xs = s₁ ++ (xs.foldl (fun best y => if key best < key y then y else best) x) :: s₂ ∧
      (∀ y ∈ s₁, key y < key (xs.foldl (fun best y => if key best < key y then y else best) x)) ∧
      (∀ y ∈ x :: xs, key y ≤ key (xs.foldl (fun best y => if key best < key y then y else best) x)) := by
  induction xs with
  | nil =>
    intro x
    exact ⟨[], [], rfl, by simp, by simp⟩
  | cons y ys ih =>
    intro x
    simp only [List.foldl_cons]
    by_cases hxy : key x < key y
    · rw [if_pos hxy]
      obtain ⟨s₁, s₂, hdec, hlt, hmax⟩ := ih y
      have hym : key y ≤ key (ys.foldl (fun best y => if key best < key y then y else best) y) :=
        hmax y (List.mem_cons_self y ys)
      refine ⟨x :: s₁, s₂, ?_, ?_, ?_⟩
      · rw [List.cons_append, ← hdec]
      · intro z hz
        rcases List.mem_cons.mp hz with rfl | hz'
        · exact lt_of_lt_of_le hxy hym
        · exact hlt z hz'
      · intro z hz
        rcases List.mem_cons.mp hz with rfl | hz'
        · exact le_of_lt (lt_of_lt_of_le hxy hym)
        · exact hmax z hz'
    · rw [if_neg hxy]
      obtain ⟨s₁, s₂, hdec, hlt, hmax⟩ := ih x
      have hyx : key y ≤ key x := le_of_not_lt hxy
      have hxm : key x ≤ key (ys.foldl (fun best y => if key best < key y then y else best) x) :=
        hmax x (List.mem_cons_self x ys)
      cases s₁ with
      | nil =>
        simp only [List.nil_append] at hdec
        injection hdec with h1 h2
        refine ⟨[], y :: ys, ?_, by simp, ?_⟩
        · simp [← h1]
        · intro z hz
          rcases List.mem_cons.mp hz with rfl | hz'
          · rw [← h1]
          · rcases List.mem_cons.mp hz' with rfl | hz''
            · rw [← h1]; exact hyx
            · exact hmax z (List.mem_cons_of_mem x hz'')
      | cons a t =>
        injection hdec with h1 h2
        subst h1
        refine ⟨x :: y :: t, s₂, ?_, ?_, ?_⟩
        · simp only [List.cons_append]
          exact congrArg (fun l => x :: y :: l) h2
        · intro z hz
          rcases List.mem_cons.mp hz with rfl | hz'
          · exact hlt z (List.mem_cons_self z t)
          · rcases List.mem_cons.mp hz' with rfl | hz''
            · exact lt_of_le_of_lt hyx (hlt x (List.mem_cons_self x t))
            · exact hlt z (List.mem_cons_of_mem x hz'')
        · intro z hz
          rcases List.mem_cons.mp hz with rfl | hz'
          · exact hmax z (List.mem_cons_self z ys)
          · rcases List.mem_cons.mp hz' with rfl | hz''
            · exact le_trans hyx (hmax x (List.mem_cons_self x ys))
            · exact hmax z (List.mem_cons_of_mem x hz'')

/-- Specification of pyMax: the returned element is the first maximal
element encountered in the iteration order. -/
lemma pyMax_spec (key : Json → ℕ) (s : List Json) (m : Json) (h : pyMax key s = some m) :
    ∃ s₁ s₂, s = s₁ ++ m :: s₂ ∧ (∀ y ∈ s₁, key y < key m) ∧ ∀ y ∈ s, key y ≤ key m := by
  cases s with
  | nil => cases h
  | cons x xs =>
    obtain ⟨s₁, s₂, hdec, hlt, hmax⟩ := foldl_max_spec key xs x
    have hm : xs.foldl (fun best y => if key best < key y then y else best) x = m :=
      Option.some_inj.mp h
    rw [hm] at hdec hlt hmax
    exact ⟨s₁, s₂, hdec, hlt, hmax⟩

/-- The spec's concrete mean example: records with experience 2, 4 and 6. -/
def exExperienceRecords : List Json :=
  [Json.obj [("experience_years", Json.num 2)],
    Json.obj [("experience_years", Json.num 4)],
    Json.obj [("experience_years", Json.num 6)]]

/-- The spec's concrete skills example: lists [Python, SQL], [Python], [Go]. -/
def exSkillRecords : List Json :=
  [Json.obj [("skills", Json.arr [Json.str "Python", Json.str "SQL"])],
    Json.obj [("skills", Json.arr [Json.str "Python"])],
    Json.obj [("skills", Json.arr [Json.str "Go"])]]

/-- When every record has a numeric experience_years field, the experience
column is exactly the list of those values. -/
lemma expValues_of_map (records : List Json) (qs : List ℚ)
    (hq : records.map (fun r => r.getKey "experience_years") =
      qs.map (fun q => some (Json.num q))) :
    expValues records = qs := by
  induction records generalizing qs with
  | nil =>
    cases qs with
    | nil => rfl
    | cons q qs' => simp at hq
  | cons r rest ih =>
    cases qs with
    | nil => simp at hq
    | cons q qs' =>
      simp only [List.map_cons, List.cons.injEq] at hq
      obtain ⟨h1, h2⟩ := hq
      unfold expValues
      simp only [List.filterMap_cons, h1]
      exact congrArg (q :: ·) (ih qs' h2)

/-- On the spec's skills example the most common skill is Python for every
admissible iteration order of the deduplicating set. -/
lemma exSkill_most_common (s' : List Json)
    (hmem' : ∀ x, x ∈ s' ↔ x ∈ allSkills exSkillRecords) :
    most_common_skill exSkillRecords s' = some (Json.str "Python") := by
  have hall : allSkills exSkillRecords =
      [Json.str "Python", Json.str "SQL", Json.str "Python", Json.str "Go"] := rfl
  cases s' with
  | nil =>
    have hP : Json.str "Python" ∈ ([] : List Json) :=
      (hmem' (Json.str "Python")).mpr (by rw [hall]; simp)
    simp at hP
  | cons x xs =>
    have hpy : most_common_skill exSkillRecords (x :: xs) =
        some (xs.foldl (fun best y =>
          if countB (allSkills exSkillRecords) best < countB (allSkills exSkillRecords) y
          then y else best) x) := rfl
    set key := countB (allSkills exSkillRecords) with hkey
    set m := xs.foldl (fun best y => if key best < key y then y else best) x with hmdef
    obtain ⟨s₁, s₂, hdec, hlt, hmax⟩ := pyMax_spec key (x :: xs) m rfl
    have hmm : m ∈ x :: xs := by rw [hdec]; simp
    have hmall : m ∈ allSkills exSkillRecords := (hmem' m).mp hmm
    have hPm : key (Json.str "Python") ≤ key m :=
      hmax (Json.str "Python") ((hmem' (Json.str "Python")).mpr (by rw [hall]; simp))
    have hP2 : key (Json.str "Python") = 2 := rfl
    have hS1 : key (Json.str "SQL") = 1 := rfl
    have hG1 : key (Json.str "Go") = 1 := rfl
    rw [hall] at hmall
    have hmP : m = Json.str "Python" := by
      rcases (by simpa using hmall : m = Json.str "Python" ∨ m = Json.str "SQL" ∨
          m = Json.str "Python" ∨ m = Json.str "Go") with h | h | h | h
      · exact h
      · exfalso; rw [h] at hPm; rw [hP2, hS1] at hPm; omega
      · exact h
      · exfalso; rw [h] at hPm; rw [hP2, hG1] at hPm; omega
    rw [hpy, hmP]

/-- C8: for a stored collection whose records carry the numeric experience
values qs, the summary reports the arithmetic mean qs.sum/qs.length and the
total record count; the most-common skill (computed over any iteration order
s of the deduplicating set of the union of the skills lists) is an element of
maximal occurrence count, namely the first maximal element encountered in
that order; concretely, experience [2,4,6] gives mean 4 and skills lists
[[Python, SQL], [Python], [Go]] give Python under every set order. -/
theorem C8_summary_statistics (records : List Json) (qs : List ℚ) (s : List Json) (m : Json)
    (hq : records.map (fun r => r.getKey "experience_years") =
      qs.map (fun q => some (Json.num q)))
    (_hnd : s.Nodup)
    (hmem : ∀ x, x ∈ s ↔ x ∈ allSkills records)
    (hm : most_common_skill records s = some m) :
    avg_experience records = qs.sum / qs.length ∧
    total_candidates records = records.length ∧
    m ∈ allSkills records ∧
    (∀ y ∈ allSkills records, countB (allSkills records) y ≤ countB (allSkills records) m) ∧
    (∃ s₁ s₂, s = s₁ ++ m :: s₂ ∧
      ∀ y ∈ s₁, countB (allSkills records) y < countB (allSkills records) m) ∧
    avg_experience exExperienceRecords = 4 ∧
    (∀ s', (∀ x, x ∈ s' ↔ x ∈ allSkills exSkillRecords) →
      most_common_skill exSkillRecords s' = some (Json.str "Python")) := by
  obtain ⟨s₁, s₂, hdec, hlt, hmax⟩ := pyMax_spec (countB (allSkills records)) s m hm
  have hms : m ∈ s := by rw [hdec]; simp
  refine ⟨?_, rfl, (hmem m).mp hms, ?_, ⟨s₁, s₂, hdec, hlt⟩, ?_, exSkill_most_common⟩
  · rw [avg_experience, expValues_of_map records qs hq]
  · intro y hy
    exact hmax y ((hmem y).mpr hy)
  · have h : expValues exExperienceRecords = [2, 4, 6] := by rfl
    rw [avg_experience, h]
    norm_num

/-- Witness for C8 on records carrying experience [2,4,6] and the example
skills lists. -/
theorem C8_summary_statistics_witness :
    avg_experience
      [Json.obj [("experience_years", Json.num 2),
        ("skills", Json.arr [Json.str "Python", Json.str "SQL"])],
       Json.obj [("experience_years", Json.num 4), ("skills", Json.arr [Json.str "Python"])],
       Json.obj [("experience_years", Json.num 6), ("skills", Json.arr [Json.str "Go"])]] =
      ([2, 4, 6] : List ℚ).sum / ([2, 4, 6] : List ℚ).length :=
  (C8_summary_statistics
    [Json.obj [("experience_years", Json.num 2),
      ("skills", Json.arr [Json.str "Python", Json.str "SQL"])],
     Json.obj [("experience_years", Json.num 4), ("skills", Json.arr [Json.str "Python"])],
     Json.obj [("experience_years", Json.num 6), ("skills", Json.arr [Json.str "Go"])]]
    [2, 4, 6] [Json.str "Python", Json.str "SQL", Json.str "Go"] (Json.str "Python")
    (by rfl)
    (by simp)
    (by intro x
        rw [show allSkills
          [Json.obj [("experience_years", Json.num 2),
            ("skills", Json.arr [Json.str "Python", Json.str "SQL"])],
           Json.obj [("experience_years", Json.num 4), ("skills", Json.arr [Json.str "Python"])],
           Json.obj [("experience_years", Json.num 6), ("skills", Json.arr [Json.str "Go"])]] =
          [Json.str "Python", Json.str "SQL", Json.str "Python", Json.str "Go"] from rfl]
        simp only [List.mem_cons, List.not_mem_nil, or_false]
        tauto)
    (by rfl)).1

/-- C2 counterexample: a PDF where both strategies fail to produce any
non-whitespace output (primary sees a single space, fallback a single empty
page text), yet the function returns the one-newline string, not the empty
string the claim requires. -/
theorem C2_counterexample :
    hasContent (plumberConcat [some " "]) = false ∧
      (extract_text_from_pdf ⟨"b.pdf", Except.ok [some " "],
        fun _ => Except.ok [""]⟩).1 = "\n" ∧
      hasContent "\n" = false ∧ "\n" ≠ "" := by
  refine ⟨by decide, rfl, by decide, by decide⟩

lemma digitChar_toNat : ∀ d, d < 10 → (digitChar d).toNat = 48 + d := by decide

lemma char_ne_of_toNat (c d : Char) (h : c.toNat ≠ d.toNat) : c ≠ d :=
  fun he => h (congrArg Char.toNat he)

lemma readDigitsAux_stop (cs : List Char) (v k : ℕ)
    (h : ∀ c, cs.head? = some c → c.toNat < 48 ∨ 57 < c.toNat) :
    readDigitsAux cs v k = (v, k, cs) := by
  cases cs with
  | nil => rfl
  | cons c t =>
    have hc := h c rfl
    unfold readDigitsAux
    rw [if_neg (by omega)]

lemma readDigitsAux_digit (d : ℕ) (hd : d < 10) (t : List Char) (v k : ℕ) :
    readDigitsAux (digitChar d :: t) v k = readDigitsAux t (v * 10 + d) (k + 1) := by
  conv_lhs => rw [readDigitsAux]
  rw [if_pos (by rw [digitChar_toNat d hd]; omega), digitChar_toNat d hd]
  have h : 48 + d - 48 = d := by omega
  rw [h]

lemma readDigitsAux_digitsAux (fuel : ℕ) :
    ∀ (n : ℕ), n < fuel → ∀ (t : List Char) (v k : ℕ),
    readDigitsAux (digitsAux fuel n ++ t) v k =
      readDigitsAux t (v * 10 ^ (digitsAux fuel n).length + n) (k + (digitsAux fuel n).length) := by
  induction fuel with
  | zero => intro n hn; omega
  | succ fuel ih =>
    intro n hn t v k
    by_cases h10 : n < 10
    · unfold digitsAux
      rw [if_pos h10]
      simp only [List.cons_append, List.nil_append, List.length_cons, List.length_nil]
      rw [readDigitsAux_digit n h10 t v k]
      norm_num
    · unfold digitsAux
      rw [if_neg h10]
      have hlt : n / 10 < fuel := by omega
      simp only [List.append_assoc, List.cons_append, List.nil_append, List.length_append,
        List.length_cons, List.length_nil]
      rw [ih (n / 10) hlt (digitChar (n % 10) :: t) v k]
      rw [readDigitsAux_digit (n % 10) (Nat.mod_lt n (by norm_num)) t _ _]
      have hdm : n / 10 * 10 + n % 10 = n := by omega
      have harg : (v * 10 ^ (digitsAux fuel (n / 10)).length + n / 10) * 10 + n % 10 =
          v * 10 ^ ((digitsAux fuel (n / 10)).length + 1) + n := by
        rw [pow_succ]
        calc (v * 10 ^ (digitsAux fuel (n / 10)).length + n / 10) * 10 + n % 10
            = v * (10 ^ (digitsAux fuel (n / 10)).length * 10) +
              (n / 10 * 10 + n % 10) := by ring
          _ = v * (10 ^ (digitsAux fuel (n / 10)).length * 10) + n := by rw [hdm]
      rw [harg]
      norm_num [Nat.add_assoc]

lemma readDigitsAux_pad : ∀ (k n : ℕ) (t : List Char) (v k0 : ℕ),
    readDigitsAux (natDigitsPad k n ++ t) v k0 =
      readDigitsAux t (v * 10 ^ k + n % 10 ^ k) (k0 + k) := by
  intro k
  induction k with
  | zero => intro n t v k0; simp [natDigitsPad, Nat.mod_one]
  | succ k ih =>
    intro n t v k0
    unfold natDigitsPad
    rw [List.append_assoc, List.cons_append, List.nil_append]
    rw [ih (n / 10) (digitChar (n % 10) :: t) v k0]
    rw [readDigitsAux_digit (n % 10) (Nat.mod_lt n (by norm_num)) t _ _]
    have hmod : n / 10 % 10 ^ k * 10 + n % 10 = n % 10 ^ (k + 1) := by
      have ha := Nat.div_add_mod (n / 10) (10 ^ k)
      have hb := Nat.div_add_mod n 10
      have hb' : n / 10 % 10 ^ k < 10 ^ k := Nat.mod_lt _ (by positivity)
      have hr : n % 10 < 10 := Nat.mod_lt n (by norm_num)
      have hn : n = 10 ^ (k + 1) * (n / 10 / 10 ^ k) + (n / 10 % 10 ^ k * 10 + n % 10) := by
        rw [pow_succ]
        calc n = 10 * (n / 10) + n % 10 := by omega
          _ = 10 * (10 ^ k * (n / 10 / 10 ^ k) + n / 10 % 10 ^ k) + n % 10 := by rw [ha]
          _ = 10 ^ k * 10 * (n / 10 / 10 ^ k) + (n / 10 % 10 ^ k * 10 + n % 10) := by ring
      have hlt2 : n / 10 % 10 ^ k * 10 + n % 10 < 10 ^ (k + 1) := by
        rw [pow_succ]
        omega
      conv_rhs => rw [hn]
      rw [Nat.mul_add_mod]
      exact (Nat.mod_eq_of_lt hlt2).symm
    have harg : (v * 10 ^ k + n / 10 % 10 ^ k) * 10 + n % 10 =
        v * 10 ^ (k + 1) + n % 10 ^ (k + 1) := by
      rw [← hmod, pow_succ]
      ring
    rw [harg, Nat.add_assoc]

lemma digitsAux_head : ∀ (fuel n : ℕ), n < fuel →
    ∃ d t, digitsAux fuel n = digitChar d :: t ∧ d < 10 := by
  intro fuel
  induction fuel with
  | zero => intro n hn; omega
  | succ fuel ih =>
    intro n hn
    by_cases h10 : n < 10
    · exact ⟨n, [], by unfold digitsAux; rw [if_pos h10], h10⟩
    · obtain ⟨d, t, hdt, hd⟩ := ih (n / 10) (by omega)
      refine ⟨d, t ++ [digitChar (n % 10)], ?_, hd⟩
      unfold digitsAux
      rw [if_neg h10, hdt]
      simp

lemma natDigits_head (n : ℕ) : ∃ d t, natDigits n = digitChar d :: t ∧ d < 10 :=
  digitsAux_head (n + 1) n (by omega)

lemma isWsChar_toNat (c : Char) (h : isWsChar c = true) :
    c.toNat = 32 ∨ c.toNat = 9 ∨ c.toNat = 10 ∨ c.toNat = 13 := by
  unfold isWsChar at h
  simp only [decide_eq_true_eq, Bool.or_eq_true] at h
  rcases h with h | h | h | h <;> subst h <;> decide

lemma skipWs_not_ws (c : Char) (cs : List Char) (h : isWsChar c = false) :
    skipWs (c :: cs) = c :: cs := by
  unfold skipWs
  rw [h]
  simp

lemma skipWs_ws_append (ws : List Char) (cs : List Char)
    (h : ∀ c ∈ ws, isWsChar c = true) :
    skipWs (ws ++ cs) = skipWs cs := by
  induction ws with
  | nil => rfl
  | cons c t ih =>
    rw [List.cons_append]
    conv_lhs => rw [skipWs]
    rw [h c (List.mem_cons_self c t)]
    simp only [if_true]
    exact ih (fun c' hc' => h c' (List.mem_cons_of_mem c hc'))

lemma parseNum_neg_head (cs : List Char) : parseNum ('-' :: cs) = parseNumCore true cs := rfl

lemma parseNum_not_neg (c : Char) (cs : List Char) (h : c ≠ '-') :
    parseNum (c :: cs) = parseNumCore false (c :: cs) := by
  unfold parseNum
  split
  · next cs1 heq =>
    injection heq with h1 _
    exact absurd h1 h
  · rfl

lemma natDigits_length_pos (m : ℕ) : 0 < (natDigits m).length := by
  obtain ⟨d, t, hdt, -⟩ := natDigits_head m
  rw [hdt]
  simp

lemma readDigitsAux_natDigits (m : ℕ) (t : List Char)
    (ht : ∀ c, t.head? = some c → c.toNat < 48 ∨ 57 < c.toNat) :
    readDigitsAux (natDigits m ++ t) 0 0 = (m, (natDigits m).length, t) := by
  unfold natDigits
  rw [readDigitsAux_digitsAux (m + 1) m (by omega) t 0 0]
  rw [readDigitsAux_stop t _ _ ht]
  norm_num

lemma parseNumCore_natDigits (neg : Bool) (m : ℕ) (rest : List Char) (hns : NumSafe rest) :
    parseNumCore neg (natDigits m ++ rest) =
      some (Json.num (mkRat (if neg then -(m : ℤ) else (m : ℤ)) 1), rest) := by
  have hread := readDigitsAux_natDigits m rest (fun c hc => (hns c hc).1)
  obtain ⟨l, hl⟩ : ∃ l, (natDigits m).length = l + 1 := by
    have := natDigits_length_pos m
    exact ⟨(natDigits m).length - 1, by omega⟩
  rw [hl] at hread
  unfold parseNumCore
  simp only [hread]
  cases rest with
  | nil => rfl
  | cons c t =>
    have hc : c ≠ '.' := (hns c rfl).2
    split
    · next cs3 heq =>
      injection heq with h1 _
      exact absurd h1 hc
    · rfl

lemma parseNumCore_frac (neg : Bool) (I F k : ℕ) (hk : 0 < k) (hF : F < 10 ^ k)
    (rest : List Char) (hns : NumSafe rest) :
    parseNumCore neg (natDigits I ++ ('.' :: (natDigitsPad k F ++ rest))) =
      some (Json.num (mkRat (if neg then -((I * 10 ^ k + F : ℕ) : ℤ)
        else ((I * 10 ^ k + F : ℕ) : ℤ)) (10 ^ k)), rest) := by
  have hread1 := readDigitsAux_natDigits I ('.' :: (natDigitsPad k F ++ rest)) (by
    intro c hc
    simp only [List.head?_cons, Option.some_inj] at hc
    subst hc
    decide)
  obtain ⟨l, hl⟩ : ∃ l, (natDigits I).length = l + 1 := by
    have := natDigits_length_pos I
    exact ⟨(natDigits I).length - 1, by omega⟩
  rw [hl] at hread1
  have hread2 : readDigitsAux (natDigitsPad k F ++ rest) 0 0 = (F, k, rest) := by
    rw [readDigitsAux_pad k F rest 0 0]
    rw [readDigitsAux_stop rest _ _ (fun c hc => (hns c hc).1)]
    rw [Nat.mod_eq_of_lt hF]
    norm_num
  obtain ⟨k', hk'⟩ : ∃ k', k = k' + 1 := ⟨k - 1, by omega⟩
  subst hk'
  rw [parseNumCore, hread1]
  split
  · next fst cs3 heq =>
    injection heq with h1 h2
    injection h2 with h2a h2b
    exact absurd h2a (by omega)
  · next fv fk cs4 heq =>
    injection heq with h1 h2
    injection h2 with h2a h2b
    subst h1
    subst h2b
    split
    · next cs3 heq2 =>
      injection heq2 with h3a h3b
      subst h3b
      simp only [hread2]
    · next hne =>
      exact absurd rfl (hne (natDigitsPad (k' + 1) F ++ rest))

lemma natAbs_cast_neg (q : ℚ) (h : q.num < 0) : ((q.num.natAbs : ℤ) : ℚ) = -(q.num : ℚ) := by
  have : (q.num.natAbs : ℤ) = -q.num := by omega
  rw [this]
  push_cast
  ring

lemma natAbs_cast_nonneg (q : ℚ) (h : ¬ q.num < 0) : ((q.num.natAbs : ℤ) : ℚ) = (q.num : ℚ) := by
  have : (q.num.natAbs : ℤ) = q.num := by omega
  rw [this]

lemma mkRat_scaled (q : ℚ) (k : ℕ) (hdvd : q.den ∣ 10 ^ k) :
    mkRat (if q.num < 0 then -((q.num.natAbs * (10 ^ k / q.den) : ℕ) : ℤ)
      else ((q.num.natAbs * (10 ^ k / q.den) : ℕ) : ℤ)) (10 ^ k) = q := by
  have hdenq : (q.den : ℚ) ≠ 0 := by exact_mod_cast q.den_nz
  have hpq : ((10 ^ k : ℕ) : ℚ) ≠ 0 := by positivity
  have hcast : ((10 ^ k / q.den : ℕ) : ℚ) = ((10 ^ k : ℕ) : ℚ) / (q.den : ℚ) :=
    Nat.cast_div hdvd hdenq
  have key : (((q.num.natAbs * (10 ^ k / q.den) : ℕ)) : ℚ) / (((10 ^ k : ℕ)) : ℚ) =
      ((q.num.natAbs : ℕ) : ℚ) / (q.den : ℚ) := by
    rw [Nat.cast_mul, hcast]
    field_simp
    ring
  rw [Rat.mkRat_eq_div]
  by_cases hneg : q.num < 0
  · rw [if_pos hneg]
    rw [Int.cast_neg, Int.cast_natCast]
    rw [neg_div]
    rw [key]
    have h1 : ((q.num.natAbs : ℕ) : ℚ) = -(q.num : ℚ) := by
      have h0 : (q.num.natAbs : ℤ) = -q.num := by omega
      calc ((q.num.natAbs : ℕ) : ℚ) = (((q.num.natAbs : ℤ)) : ℚ) := by rw [Int.cast_natCast]
        _ = ((-q.num : ℤ) : ℚ) := by rw [h0]
        _ = -(q.num : ℚ) := by rw [Int.cast_neg]
    rw [h1, neg_div, neg_neg]
    exact Rat.num_div_den q
  · rw [if_neg hneg]
    rw [Int.cast_natCast]
    rw [key]
    have h1 : ((q.num.natAbs : ℕ) : ℚ) = (q.num : ℚ) := by
      have h0 : (q.num.natAbs : ℤ) = q.num := by omega
      calc ((q.num.natAbs : ℕ) : ℚ) = (((q.num.natAbs : ℤ)) : ℚ) := by rw [Int.cast_natCast]
        _ = (q.num : ℚ) := by rw [h0]
    rw [h1]
    exact Rat.num_div_den q

lemma digitChar_ne_minus (d : ℕ) (hd : d < 10) : digitChar d ≠ '-' := by
  apply char_ne_of_toNat
  rw [digitChar_toNat d hd]
  have h45 : ('-').toNat = 45 := rfl
  omega

lemma parseNum_renderNum (q : ℚ) (rest : List Char)
    (hdec : (pow10Exp q.den).isSome = true) (hns : NumSafe rest) :
    parseNum (renderNum q ++ rest) = some (Json.num q, rest) := by
  obtain ⟨k, hk⟩ := Option.isSome_iff_exists.mp hdec
  have hdvd : q.den ∣ 10 ^ k := by
    have h := List.find?_some hk
    simpa using h
  by_cases hk0 : k = 0
  · subst hk0
    have hden1 : q.den = 1 := Nat.dvd_one.mp (by simpa using hdvd)
    have hrn : renderNum q = intDigits q.num := by
      rw [renderNum, hk]
      simp
    rw [hrn]
    unfold intDigits
    by_cases hneg : q.num < 0
    · rw [if_pos hneg]
      rw [List.append_assoc, List.singleton_append]
      rw [parseNum_neg_head]
      rw [parseNumCore_natDigits true q.num.natAbs rest hns]
      have hv : mkRat (-(q.num.natAbs : ℤ)) 1 = q := by
        have hms := mkRat_scaled q 0 hdvd
        rw [if_pos hneg] at hms
        simpa [hden1] using hms
      rw [if_pos rfl, hv]
    · rw [if_neg hneg]
      rw [List.nil_append]
      obtain ⟨d, t, hdt, hd⟩ := natDigits_head q.num.natAbs
      rw [hdt, List.cons_append]
      rw [parseNum_not_neg _ _ (digitChar_ne_minus d hd)]
      rw [← List.cons_append, ← hdt]
      rw [parseNumCore_natDigits false q.num.natAbs rest hns]
      have hv : mkRat ((q.num.natAbs : ℤ)) 1 = q := by
        have hms := mkRat_scaled q 0 hdvd
        rw [if_neg hneg] at hms
        simpa [hden1] using hms
      rw [if_neg (by simp), hv]
  · have hkpos : 0 < k := Nat.pos_of_ne_zero hk0
    have hrn : renderNum q = (if q.num < 0 then ['-'] else []) ++
        natDigits (q.num.natAbs * (10 ^ k / q.den) / 10 ^ k) ++
        '.' :: natDigitsPad k (q.num.natAbs * (10 ^ k / q.den) % 10 ^ k) := by
      rw [renderNum, hk]
      simp only [if_neg hk0]
    rw [hrn]
    have hF : q.num.natAbs * (10 ^ k / q.den) % 10 ^ k < 10 ^ k :=
      Nat.mod_lt _ (by positivity)
    have hs : q.num.natAbs * (10 ^ k / q.den) / 10 ^ k * 10 ^ k +
        q.num.natAbs * (10 ^ k / q.den) % 10 ^ k = q.num.natAbs * (10 ^ k / q.den) := by
      calc q.num.natAbs * (10 ^ k / q.den) / 10 ^ k * 10 ^ k +
            q.num.natAbs * (10 ^ k / q.den) % 10 ^ k
          = 10 ^ k * (q.num.natAbs * (10 ^ k / q.den) / 10 ^ k) +
            q.num.natAbs * (10 ^ k / q.den) % 10 ^ k := by ring
        _ = q.num.natAbs * (10 ^ k / q.den) := Nat.div_add_mod _ (10 ^ k)
    by_cases hneg : q.num < 0
    · rw [if_pos hneg]
      simp only [List.append_assoc, List.singleton_append, List.cons_append, List.nil_append]
      rw [parseNum_neg_head]
      rw [parseNumCore_frac true _ _ k hkpos hF rest hns]
      rw [if_pos rfl, hs]
      have hms := mkRat_scaled q k hdvd
      rw [if_pos hneg] at hms
      rw [hms]
    · rw [if_neg hneg]
      simp only [List.nil_append, List.append_assoc, List.cons_append]
      obtain ⟨d, t, hdt, hd⟩ := natDigits_head (q.num.natAbs * (10 ^ k / q.den) / 10 ^ k)
      rw [hdt, List.cons_append]
      rw [parseNum_not_neg _ _ (digitChar_ne_minus d hd)]
      rw [← List.cons_append, ← hdt]
      rw [parseNumCore_frac false _ _ k hkpos hF rest hns]
      rw [if_neg (by simp), hs]
      have hms := mkRat_scaled q k hdvd
      rw [if_neg hneg] at hms
      rw [hms]

lemma char_toNat_valid (c : Char) :
    c.toNat < 55296 ∨ (57343 < c.toNat ∧ c.toNat < 1114112) := by
  rcases c.valid with h | ⟨h1, h2⟩
  · exact Or.inl (UInt32.toNat_lt_of_lt (by decide) h)
  · exact Or.inr ⟨UInt32.lt_toNat_of_lt (by decide) h1,
      UInt32.toNat_lt_of_lt (by decide) h2⟩

lemma hexVal_hexDigitChar : ∀ d, d < 16 → hexVal (hexDigitChar d) = some d := by decide

lemma hexVal4_hex4 (n : ℕ) (hn : n < 65536) :
    hexVal4 (hexDigitChar (n / 4096 % 16)) (hexDigitChar (n / 256 % 16))
      (hexDigitChar (n / 16 % 16)) (hexDigitChar (n % 16)) = some n := by
  unfold hexVal4
  rw [hexVal_hexDigitChar _ (Nat.mod_lt _ (by norm_num)),
    hexVal_hexDigitChar _ (Nat.mod_lt _ (by norm_num)),
    hexVal_hexDigitChar _ (Nat.mod_lt _ (by norm_num)),
    hexVal_hexDigitChar _ (Nat.mod_lt _ (by norm_num))]
  simp only [Option.bind_eq_bind, Option.some_bind, Option.pure_def]
  congr 1
  omega

lemma parseStrAux_cons_plain (c : Char) (cs : List Char) (hq : c ≠ '"') (hb : c ≠ '\\') :
    parseStrAux (c :: cs) =
      (match parseStrAux cs with
      | some (s, r) => some (c :: s, r)
      | none => none) := by
  conv_lhs => rw [parseStrAux]
  rw [if_neg hq, if_neg hb]

lemma parseStrAux_backslash (cs : List Char) :
    parseStrAux ('\\' :: cs) = parseEsc cs := by
  rw [parseStrAux]
  rw [if_neg (by decide), if_pos rfl]

lemma parseEsc_short (e ch : Char) (cs : List Char) (hu : e ≠ 'u')
    (he : unescape e = some ch) :
    parseEsc (e :: cs) =
      (match parseStrAux cs with
      | some (s, r) => some (ch :: s, r)
      | none => none) := by
  rw [parseEsc, if_neg hu, he]

lemma parseU_bmp (n : ℕ) (hval : n < 55296 ∨ 57343 < n) (hn : n < 65536) (cs : List Char) :
    parseU (hex4 n ++ cs) =
      (match parseStrAux cs with
      | some (s, r) => some (Char.ofNat n :: s, r)
      | none => none) := by
  show parseU (hexDigitChar (n / 4096 % 16) :: hexDigitChar (n / 256 % 16) ::
    hexDigitChar (n / 16 % 16) :: hexDigitChar (n % 16) :: cs) = _
  rw [parseU, hexVal4_hex4 n hn]
  show (if n < 55296 ∨ 57343 < n then
      match parseStrAux cs with
      | some (s, r) => some (Char.ofNat n :: s, r)
      | none => none
    else if n ≤ 56319 then parseLow n cs else none) = _
  rw [if_pos hval]

lemma parseU_pair (v : ℕ) (hv : v < 1048576) (cs : List Char) :
    parseU (hex4 (55296 + v / 1024) ++ ('\\' :: 'u' :: hex4 (56320 + v % 1024) ++ cs)) =
      (match parseStrAux cs with
      | some (s, r) => some (Char.ofNat (65536 + v) :: s, r)
      | none => none) := by
  have hd : v / 1024 < 1024 := by omega
  have hm : v % 1024 < 1024 := by omega
  show parseU (hexDigitChar ((55296 + v / 1024) / 4096 % 16) ::
    hexDigitChar ((55296 + v / 1024) / 256 % 16) ::
    hexDigitChar ((55296 + v / 1024) / 16 % 16) ::
    hexDigitChar ((55296 + v / 1024) % 16) ::
    ('\\' :: 'u' :: hex4 (56320 + v % 1024) ++ cs)) = _
  rw [parseU, hexVal4_hex4 _ (by omega)]
  show (if 55296 + v / 1024 < 55296 ∨ 57343 < 55296 + v / 1024 then
      match parseStrAux ('\\' :: 'u' :: hex4 (56320 + v % 1024) ++ cs) with
      | some (s, r) => some (Char.ofNat (55296 + v / 1024) :: s, r)
      | none => none
    else if 55296 + v / 1024 ≤ 56319 then
      parseLow (55296 + v / 1024) ('\\' :: 'u' :: hex4 (56320 + v % 1024) ++ cs)
    else none) = _
  rw [if_neg (by omega), if_pos (by omega)]
  show parseLow (55296 + v / 1024) ('\\' :: 'u' ::
    hexDigitChar ((56320 + v % 1024) / 4096 % 16) ::
    hexDigitChar ((56320 + v % 1024) / 256 % 16) ::
    hexDigitChar ((56320 + v % 1024) / 16 % 16) ::
    hexDigitChar ((56320 + v % 1024) % 16) :: cs) = _
  rw [parseLow, if_pos ⟨rfl, rfl⟩, hexVal4_hex4 _ (by omega)]
  show (if 56320 ≤ 56320 + v % 1024 ∧ 56320 + v % 1024 ≤ 57343 then
      match parseStrAux cs with
      | some (s, r) =>
        some (Char.ofNat (65536 + (55296 + v / 1024 - 55296) * 1024 +
          (56320 + v % 1024 - 56320)) :: s, r)
      | none => none
    else none) = _
  rw [if_pos (by omega : 56320 ≤ 56320 + v % 1024 ∧ 56320 + v % 1024 ≤ 57343)]
  have hch : 65536 + (55296 + v / 1024 - 55296) * 1024 + (56320 + v % 1024 - 56320) =
      65536 + v := by omega
  rw [hch]

lemma parseEsc_u (cs : List Char) : parseEsc ('u' :: cs) = parseU cs := by
  rw [parseEsc, if_pos rfl]

lemma parseStrAux_escapeChar (c : Char) (tail l rest : List Char)
    (ih : parseStrAux tail = some (l, rest)) :
    parseStrAux (escapeChar c ++ tail) = some (c :: l, rest) := by
  rw [escapeChar]
  by_cases hq : c = '"'
  · subst hq
    rw [if_pos rfl]
    show parseStrAux ('\\' :: '"' :: tail) = _
    rw [parseStrAux_backslash, parseEsc_short '"' '"' tail (by decide) (by decide)]
    simp only [ih]
  rw [if_neg hq]
  by_cases hb : c = '\\'
  · subst hb
    rw [if_pos rfl]
    show parseStrAux ('\\' :: '\\' :: tail) = _
    rw [parseStrAux_backslash, parseEsc_short '\\' '\\' tail (by decide) (by decide)]
    simp only [ih]
  rw [if_neg hb]
  by_cases h8 : c.toNat = 8
  · rw [if_pos h8]
    show parseStrAux ('\\' :: 'b' :: tail) = _
    rw [parseStrAux_backslash, parseEsc_short 'b' (Char.ofNat 8) tail (by decide) (by decide)]
    simp only [ih, h8 ▸ Char.ofNat_toNat c]
  rw [if_neg h8]
  by_cases h9 : c.toNat = 9
  · rw [if_pos h9]
    show parseStrAux ('\\' :: 't' :: tail) = _
    rw [parseStrAux_backslash, parseEsc_short 't' (Char.ofNat 9) tail (by decide) (by decide)]
    simp only [ih, h9 ▸ Char.ofNat_toNat c]
  rw [if_neg h9]
  by_cases h10 : c.toNat = 10
  · rw [if_pos h10]
    show parseStrAux ('\\' :: 'n' :: tail) = _
    rw [parseStrAux_backslash, parseEsc_short 'n' (Char.ofNat 10) tail (by decide) (by decide)]
    simp only [ih, h10 ▸ Char.ofNat_toNat c]
  rw [if_neg h10]
  by_cases h12 : c.toNat = 12
  · rw [if_pos h12]
    show parseStrAux ('\\' :: 'f' :: tail) = _
    rw [parseStrAux_backslash, parseEsc_short 'f' (Char.ofNat 12) tail (by decide) (by decide)]
    simp only [ih, h12 ▸ Char.ofNat_toNat c]
  rw [if_neg h12]
  by_cases h13 : c.toNat = 13
  · rw [if_pos h13]
    show parseStrAux ('\\' :: 'r' :: tail) = _
    rw [parseStrAux_backslash, parseEsc_short 'r' (Char.ofNat 13) tail (by decide) (by decide)]
    simp only [ih, h13 ▸ Char.ofNat_toNat c]
  rw [if_neg h13]
  by_cases hp : 32 ≤ c.toNat ∧ c.toNat ≤ 126
  · rw [if_pos hp]
    show parseStrAux (c :: tail) = _
    rw [parseStrAux_cons_plain c tail hq hb]
    simp only [ih]
  rw [if_neg hp]
  by_cases hlt : c.toNat < 65536
  · rw [if_pos hlt]
    show parseStrAux ('\\' :: 'u' :: (hex4 c.toNat ++ tail)) = _
    have hval : c.toNat < 55296 ∨ 57343 < c.toNat := by
      rcases char_toNat_valid c with h | ⟨h1, h2⟩
      · exact Or.inl h
      · exact Or.inr h1
    rw [parseStrAux_backslash, parseEsc_u, parseU_bmp c.toNat hval hlt tail]
    simp only [ih, Char.ofNat_toNat]
  rw [if_neg hlt]
  have hv : c.toNat - 65536 < 1048576 := by
    rcases char_toNat_valid c with h | ⟨h1, h2⟩ <;> omega
  have h1 : (('\\' :: 'u' :: hex4 (55296 + (c.toNat - 65536) / 1024) ++
      '\\' :: 'u' :: hex4 (56320 + (c.toNat - 65536) % 1024)) ++ tail) =
      '\\' :: 'u' :: (hex4 (55296 + (c.toNat - 65536) / 1024) ++
        ('\\' :: 'u' :: hex4 (56320 + (c.toNat - 65536) % 1024) ++ tail)) := by
    simp [List.append_assoc]
  rw [h1, parseStrAux_backslash, parseEsc_u,
    parseU_pair (c.toNat - 65536) hv tail]
  have harith : 65536 + (c.toNat - 65536) = c.toNat := by omega
  simp only [ih, harith, Char.ofNat_toNat]

lemma parseStrAux_escList (l rest : List Char) :
    parseStrAux (escList l ++ rest) = some (l, rest) := by
  induction l with
  | nil =>
    show parseStrAux ('"' :: rest) = _
    rw [parseStrAux, if_pos rfl]
  | cons c l ih =>
    have h1 : escList (c :: l) ++ rest = escapeChar c ++ (escList l ++ rest) := by
      simp [escList, List.append_assoc]
    rw [h1]
    exact parseStrAux_escapeChar c _ l rest ih


lemma parseValue_null (f : ℕ) (r : List Char) :
    parseValue (f + 1) ('n' :: 'u' :: 'l' :: 'l' :: r) = some (Json.null, r) := rfl

lemma parseValue_true (f : ℕ) (r : List Char) :
    parseValue (f + 1) ('t' :: 'r' :: 'u' :: 'e' :: r) = some (Json.bool true, r) := rfl

lemma parseValue_false (f : ℕ) (r : List Char) :
    parseValue (f + 1) ('f' :: 'a' :: 'l' :: 's' :: 'e' :: r) = some (Json.bool false, r) := rfl

lemma parseValue_str (f : ℕ) (cs : List Char) :
    parseValue (f + 1) ('"' :: cs) =
      (match parseStrAux cs with
      | some (s, r) => some (Json.str ⟨s⟩, r)
      | none => none) := rfl

lemma parseValue_arr (f : ℕ) (cs : List Char) :
    parseValue (f + 1) ('[' :: cs) =
      (match skipWs cs with
      | ']' :: r => some (Json.arr [], r)
      | _ =>
        match parseElems f cs with
        | some (xs, r) => some (Json.arr xs, r)
        | none => none) := rfl

lemma parseValue_obj (f : ℕ) (cs : List Char) :
    parseValue (f + 1) ('\x7b' :: cs) =
      (match skipWs cs with
      | '\x7d' :: r => some (Json.obj [], r)
      | _ =>
        match parseMembers f cs with
        | some (ps, r) => some (Json.obj ps, r)
        | none => none) := rfl

lemma isWsChar_eq_false (c : Char)
    (h : c.toNat ≠ 32 ∧ c.toNat ≠ 9 ∧ c.toNat ≠ 10 ∧ c.toNat ≠ 13) :
    isWsChar c = false := by
  unfold isWsChar
  apply decide_eq_false
  rintro (rfl | rfl | rfl | rfl)
  exacts [h.1 rfl, h.2.1 rfl, h.2.2.1 rfl, h.2.2.2 rfl]

lemma parseValue_ws (f : ℕ) (ws cs : List Char) (h : ∀ c ∈ ws, isWsChar c = true) :
    parseValue (f + 1) (ws ++ cs) = parseValue (f + 1) cs := by
  conv_lhs => rw [parseValue]
  conv_rhs => rw [parseValue]
  rw [skipWs_ws_append ws cs h]

lemma parseValue_numHead (f : ℕ) (c : Char) (cs : List Char)
    (hd : c = '-' ∨ (48 ≤ c.toNat ∧ c.toNat ≤ 57)) :
    parseValue (f + 1) (c :: cs) = parseNum (c :: cs) := by
  have hcn : c.toNat = 45 ∨ (48 ≤ c.toNat ∧ c.toNat ≤ 57) := by
    rcases hd with rfl | h
    · exact Or.inl rfl
    · exact Or.inr h
  have hws : isWsChar c = false := isWsChar_eq_false c (by omega)
  conv_lhs => rw [parseValue]
  simp only [skipWs_not_ws c cs hws]
  rw [if_neg (char_ne_of_toNat c 'n' (by rw [show Char.toNat 'n' = 110 from rfl]; omega)),
    if_neg (char_ne_of_toNat c 't' (by rw [show Char.toNat 't' = 116 from rfl]; omega)),
    if_neg (char_ne_of_toNat c 'f' (by rw [show Char.toNat 'f' = 102 from rfl]; omega)),
    if_neg (char_ne_of_toNat c '"' (by rw [show Char.toNat '"' = 34 from rfl]; omega)),
    if_neg (char_ne_of_toNat c '[' (by rw [show Char.toNat '[' = 91 from rfl]; omega)),
    if_neg (char_ne_of_toNat c '\x7b' (by rw [show Char.toNat '\x7b' = 123 from rfl]; omega)),
    if_pos hd]

lemma renderNum_head (q : ℚ) :
    ∃ c t, renderNum q = c :: t ∧ (c.toNat = 45 ∨ (48 ≤ c.toNat ∧ c.toNat ≤ 57)) := by
  cases hpow : pow10Exp q.den with
  | none =>
    refine ⟨'0', [], ?_, Or.inr (by decide)⟩
    rw [renderNum, hpow]
  | some k =>
    by_cases hk : k = 0
    · subst hk
      have hrn : renderNum q = intDigits q.num := by
        rw [renderNum, hpow]
        rfl
      rw [hrn, intDigits]
      by_cases hneg : q.num < 0
      · rw [if_pos hneg]
        exact ⟨'-', _, rfl, Or.inl rfl⟩
      · rw [if_neg hneg, List.nil_append]
        obtain ⟨d, t, hdt, hd⟩ := natDigits_head q.num.natAbs
        exact ⟨digitChar d, t, hdt, Or.inr (by rw [digitChar_toNat d hd]; omega)⟩
    · have hrn : renderNum q =
          (if q.num < 0 then ['-'] else []) ++
            natDigits (q.num.natAbs * (10 ^ k / q.den) / 10 ^ k) ++
            '.' :: natDigitsPad k (q.num.natAbs * (10 ^ k / q.den) % 10 ^ k) := by
        rw [renderNum, hpow]
        simp only [if_neg hk]
      rw [hrn]
      by_cases hneg : q.num < 0
      · rw [if_pos hneg]
        exact ⟨'-', _, rfl, Or.inl rfl⟩
      · rw [if_neg hneg, List.nil_append]
        obtain ⟨d, t, hdt, hd⟩ := natDigits_head (q.num.natAbs * (10 ^ k / q.den) / 10 ^ k)
        refine ⟨digitChar d,
          t ++ '.' :: natDigitsPad k (q.num.natAbs * (10 ^ k / q.den) % 10 ^ k), ?_,
          Or.inr (by rw [digitChar_toNat d hd]; omega)⟩
        rw [hdt]
        simp

lemma render_head (v : Json) (lvl : ℕ) :
    ∃ c t, render v lvl = c :: t ∧
      (c.toNat = 110 ∨ c.toNat = 116 ∨ c.toNat = 102 ∨ c.toNat = 34 ∨
        c.toNat = 91 ∨ c.toNat = 123 ∨ c.toNat = 45 ∨ (48 ≤ c.toNat ∧ c.toNat ≤ 57)) := by
  cases v with
  | null => exact ⟨'n', _, rfl, by decide⟩
  | bool b =>
    cases b
    · exact ⟨'f', _, rfl, by decide⟩
    · exact ⟨'t', _, rfl, by decide⟩
  | num q =>
    obtain ⟨c, t, hct, hc⟩ := renderNum_head q
    exact ⟨c, t, hct, by omega⟩
  | str s => exact ⟨'"', _, rfl, by decide⟩
  | arr xs =>
    cases xs
    · exact ⟨'[', _, rfl, by decide⟩
    · exact ⟨'[', _, rfl, by decide⟩
  | obj ps =>
    cases ps
    · exact ⟨'\x7b', _, rfl, by decide⟩
    · exact ⟨'\x7b', _, rfl, by decide⟩

lemma indentChars_ws (lvl : ℕ) : ∀ c ∈ indentChars lvl, isWsChar c = true := by
  intro c hc
  rw [indentChars] at hc
  rcases List.mem_cons.mp hc with rfl | hc
  · decide
  · rw [List.eq_of_mem_replicate hc]
    decide

lemma NumSafe_nil : NumSafe [] := by
  intro c h
  simp at h

lemma NumSafe_cons_of_toNat (c : Char) (cs : List Char)
    (h1 : c.toNat < 48 ∨ 57 < c.toNat) (h2 : c.toNat ≠ 46) : NumSafe (c :: cs) := by
  intro c' hc'
  simp only [List.head?_cons, Option.some.injEq] at hc'
  subst hc'
  exact ⟨h1, char_ne_of_toNat c '.' (by rw [show Char.toNat '.' = 46 from rfl]; exact h2)⟩

lemma NumSafe_ws_append (tail : List Char) (c : Char) (cs : List Char)
    (hws : ∀ x ∈ tail, isWsChar x = true)
    (h1 : c.toNat < 48 ∨ 57 < c.toNat) (h2 : c.toNat ≠ 46) :
    NumSafe (tail ++ c :: cs) := by
  cases tail with
  | nil => exact NumSafe_cons_of_toNat c cs h1 h2
  | cons t ts =>
    have ht := isWsChar_toNat t (hws t (List.mem_cons_self t ts))
    rw [List.cons_append]
    exact NumSafe_cons_of_toNat t _ (by omega) (by omega)

lemma renderElems_cons (x : Json) (xs : List Json) (lvl : ℕ) :
    ∃ R, renderElems (x :: xs) lvl = (indentChars lvl ++ render x lvl) ++ R := by
  cases xs with
  | nil =>
    refine ⟨[], ?_⟩
    simp [renderElems]
  | cons y ys =>
    refine ⟨',' :: renderElems (y :: ys) lvl, ?_⟩
    simp [renderElems, List.append_assoc]

lemma skipWs_render_append (v : Json) (lvl : ℕ) (R : List Char) :
    ∃ c t, skipWs (render v lvl ++ R) = c :: t ∧ c ≠ ']' ∧ c ≠ '\x7d' := by
  obtain ⟨c, t, hct, hc⟩ := render_head v lvl
  refine ⟨c, t ++ R, ?_, ?_, ?_⟩
  · rw [hct, List.cons_append, skipWs_not_ws c _ (isWsChar_eq_false c (by omega))]
  · exact char_ne_of_toNat c ']' (by rw [show Char.toNat ']' = 93 from rfl]; omega)
  · exact char_ne_of_toNat c '\x7d' (by rw [show Char.toNat '\x7d' = 125 from rfl]; omega)

lemma char_eq_of_toNat (c : Char) (n : ℕ) (h : c.toNat = n) : c = Char.ofNat n := by
  rw [← h, Char.ofNat_toNat]

theorem parse_render_all : ∀ f : ℕ,
    (∀ v lvl rest, decOkB v = true → NumSafe rest → Json.size v < f →
      parseValue f (render v lvl ++ rest) = some (v, rest)) ∧
    (∀ xs lvl tail rest, xs ≠ [] → decOkListB xs = true →
      (∀ c ∈ tail, isWsChar c = true) → sizeList xs < f →
      parseElems f (renderElems xs lvl ++ (tail ++ (']' :: rest))) = some (xs, rest)) ∧
    (∀ ps lvl tail rest, ps ≠ [] → decOkKVsB ps = true →
      (∀ c ∈ tail, isWsChar c = true) → sizeKVs ps < f →
      parseMembers f (renderMembers ps lvl ++ (tail ++ ('\x7d' :: rest))) = some (ps, rest)) := by
  intro f
  induction f with
  | zero =>
    refine ⟨fun v _ _ _ _ h => absurd h (by omega),
      fun xs _ _ _ _ _ _ h => absurd h (by omega),
      fun ps _ _ _ _ _ _ h => absurd h (by omega)⟩
  | succ f ih =>
    obtain ⟨ihV, ihE, ihM⟩ := ih
    refine ⟨?_, ?_, ?_⟩
    · intro v lvl rest hdec hns hsz
      cases v with
      | null => exact parseValue_null f rest
      | bool b =>
        cases b
        · exact parseValue_false f rest
        · exact parseValue_true f rest
      | num q =>
        obtain ⟨c, t, hct, hc⟩ := renderNum_head q
        have hrender : render (Json.num q) lvl ++ rest = c :: (t ++ rest) := by
          show renderNum q ++ rest = _
          rw [hct, List.cons_append]
        have hcd : c = '-' ∨ (48 ≤ c.toNat ∧ c.toNat ≤ 57) := by
          rcases hc with h | h
          · exact Or.inl ((char_eq_of_toNat c 45 h).trans (by decide))
          · exact Or.inr h
        rw [hrender, parseValue_numHead f c _ hcd, ← List.cons_append, ← hct]
        exact parseNum_renderNum q rest hdec hns
      | str s =>
        have h1 : render (Json.str s) lvl ++ rest = '"' :: (escList s.data ++ rest) := by
          show '"' :: escList s.data ++ rest = _
          rw [List.cons_append]
        rw [h1, parseValue_str]
        simp only [parseStrAux_escList s.data rest]
      | arr xs =>
        cases xs with
        | nil => rfl
        | cons x xs =>
          have hsplit : render (Json.arr (x :: xs)) lvl ++ rest =
              '[' :: (renderElems (x :: xs) (lvl + 1) ++ (indentChars lvl ++ (']' :: rest))) := by
            show (('[' :: renderElems (x :: xs) (lvl + 1)) ++ indentChars lvl ++ [']']) ++ rest = _
            simp [List.append_assoc]
          rw [hsplit, parseValue_arr]
          obtain ⟨R, hR⟩ := renderElems_cons x xs (lvl + 1)
          have hCS : renderElems (x :: xs) (lvl + 1) ++ (indentChars lvl ++ (']' :: rest)) =
              indentChars (lvl + 1) ++
                (render x (lvl + 1) ++ (R ++ (indentChars lvl ++ (']' :: rest)))) := by
            rw [hR]
            simp [List.append_assoc]
          obtain ⟨c, t, hct, hcne, -⟩ :=
            skipWs_render_append x (lvl + 1) (R ++ (indentChars lvl ++ (']' :: rest)))
          have hskip : skipWs (renderElems (x :: xs) (lvl + 1) ++
              (indentChars lvl ++ (']' :: rest))) = c :: t := by
            rw [hCS, skipWs_ws_append _ _ (indentChars_ws (lvl + 1)), hct]
          split
          · next r heq =>
            rw [hskip] at heq
            injection heq with h1 _
            exact absurd h1 hcne
          · next heq =>
            have hdl : decOkListB (x :: xs) = true := hdec
            have hE : parseElems f (renderElems (x :: xs) (lvl + 1) ++
                (indentChars lvl ++ (']' :: rest))) = some (x :: xs, rest) := by
              refine ihE (x :: xs) (lvl + 1) (indentChars lvl) rest
                (List.cons_ne_nil _ _) hdl (indentChars_ws lvl) ?_
              have h1 : Json.size (Json.arr (x :: xs)) = sizeList (x :: xs) + 1 := rfl
              omega
            simp only [hE]
      | obj ps =>
        cases ps with
        | nil => rfl
        | cons p ps =>
          obtain ⟨k, v⟩ := p
          have hsplit : render (Json.obj ((k, v) :: ps)) lvl ++ rest =
              '\x7b' ::
                (renderMembers ((k, v) :: ps) (lvl + 1) ++
                  (indentChars lvl ++ ('\x7d' :: rest))) := by
            show (('\x7b' :: renderMembers ((k, v) :: ps) (lvl + 1)) ++
              indentChars lvl ++ ['\x7d']) ++ rest = _
            simp [List.append_assoc]
          rw [hsplit, parseValue_obj]
          have hmem : ∃ Z, skipWs (renderMembers ((k, v) :: ps) (lvl + 1) ++
              (indentChars lvl ++ ('\x7d' :: rest))) = '"' :: Z := by
            cases ps with
            | nil =>
              refine ⟨escList k.data ++ (':' :: ' ' ::
                (render v (lvl + 1) ++ (indentChars lvl ++ ('\x7d' :: rest)))), ?_⟩
              have h2 : renderMembers [(k, v)] (lvl + 1) ++
                  (indentChars lvl ++ ('\x7d' :: rest)) =
                  indentChars (lvl + 1) ++ ('"' :: (escList k.data ++ (':' :: ' ' ::
                    (render v (lvl + 1) ++ (indentChars lvl ++ ('\x7d' :: rest)))))) := by
                simp [renderMembers, List.append_assoc]
              rw [h2, skipWs_ws_append _ _ (indentChars_ws (lvl + 1)),
                skipWs_not_ws '"' _ (by decide)]
            | cons q qs =>
              refine ⟨escList k.data ++ (':' :: ' ' :: (render v (lvl + 1) ++
                (',' :: (renderMembers (q :: qs) (lvl + 1) ++
                  (indentChars lvl ++ ('\x7d' :: rest)))))), ?_⟩
              have h2 : renderMembers ((k, v) :: q :: qs) (lvl + 1) ++
                  (indentChars lvl ++ ('\x7d' :: rest)) =
                  indentChars (lvl + 1) ++ ('"' :: (escList k.data ++ (':' :: ' ' ::
                    (render v (lvl + 1) ++ (',' :: (renderMembers (q :: qs) (lvl + 1) ++
                      (indentChars lvl ++ ('\x7d' :: rest)))))))) := by
                simp [renderMembers, List.append_assoc]
              rw [h2, skipWs_ws_append _ _ (indentChars_ws (lvl + 1)),
                skipWs_not_ws '"' _ (by decide)]
          obtain ⟨Z, hskip⟩ := hmem
          split
          · next r heq =>
            rw [hskip] at heq
            injection heq with h1 _
            exact absurd h1 (by decide)
          · next heq =>
            have hdm : decOkKVsB ((k, v) :: ps) = true := hdec
            have hM : parseMembers f (renderMembers ((k, v) :: ps) (lvl + 1) ++
                (indentChars lvl ++ ('\x7d' :: rest))) = some ((k, v) :: ps, rest) := by
              refine ihM ((k, v) :: ps) (lvl + 1) (indentChars lvl) rest
                (List.cons_ne_nil _ _) hdm (indentChars_ws lvl) ?_
              have h1 : Json.size (Json.obj ((k, v) :: ps)) = sizeKVs ((k, v) :: ps) + 1 := rfl
              omega
            simp only [hM]
    · intro xs lvl tail rest hne hdec hws hsz
      cases xs with
      | nil => exact absurd rfl hne
      | cons x xs =>
        have hd0 : (decOkB x && decOkListB xs) = true := hdec
        have hdx : decOkB x = true ∧ decOkListB xs = true := by simpa using hd0
        have hszx : Json.size x < f ∧ sizeList xs < f := by
          have h1 : sizeList (x :: xs) = Json.size x + sizeList xs + 1 := rfl
          omega
        obtain ⟨g, hg⟩ : ∃ g, f = g + 1 := ⟨f - 1, by omega⟩
        rw [parseElems]
        cases xs with
        | nil =>
          have hin : renderElems [x] lvl ++ (tail ++ (']' :: rest)) =
              indentChars lvl ++ (render x lvl ++ (tail ++ (']' :: rest))) := by
            simp [renderElems, List.append_assoc]
          have hV : parseValue f (renderElems [x] lvl ++ (tail ++ (']' :: rest))) =
              some (x, tail ++ (']' :: rest)) := by
            rw [hin, hg, parseValue_ws g _ _ (indentChars_ws lvl), ← hg]
            exact ihV x lvl _ hdx.1
              (NumSafe_ws_append tail ']' rest hws (by decide) (by decide)) hszx.1
          simp only [hV]
          have hskip2 : skipWs (tail ++ (']' :: rest)) = ']' :: rest := by
            rw [skipWs_ws_append tail _ hws, skipWs_not_ws _ _ (by decide)]
          simp only [hskip2]
        | cons y ys =>
          have hin : renderElems (x :: y :: ys) lvl ++ (tail ++ (']' :: rest)) =
              indentChars lvl ++ (render x lvl ++
                (',' :: (renderElems (y :: ys) lvl ++ (tail ++ (']' :: rest))))) := by
            simp [renderElems, List.append_assoc]
          have hV : parseValue f (renderElems (x :: y :: ys) lvl ++ (tail ++ (']' :: rest))) =
              some (x, ',' :: (renderElems (y :: ys) lvl ++ (tail ++ (']' :: rest)))) := by
            rw [hin, hg, parseValue_ws g _ _ (indentChars_ws lvl), ← hg]
            exact ihV x lvl _ hdx.1
              (NumSafe_cons_of_toNat ',' _ (by decide) (by decide)) hszx.1
          simp only [hV]
          have hskip2 : skipWs (',' :: (renderElems (y :: ys) lvl ++ (tail ++ (']' :: rest)))) =
              ',' :: (renderElems (y :: ys) lvl ++ (tail ++ (']' :: rest))) :=
            skipWs_not_ws _ _ (by decide)
          simp only [hskip2]
          have hE2 : parseElems f (renderElems (y :: ys) lvl ++ (tail ++ (']' :: rest))) =
              some (y :: ys, rest) :=
            ihE (y :: ys) lvl tail rest (List.cons_ne_nil _ _) hdx.2 hws hszx.2
          simp only [hE2]
    · intro ps lvl tail rest hne hdec hws hsz
      cases ps with
      | nil => exact absurd rfl hne
      | cons p ps =>
        obtain ⟨k, v⟩ := p
        have hd0 : (decOkB v && decOkKVsB ps) = true := hdec
        have hdx : decOkB v = true ∧ decOkKVsB ps = true := by simpa using hd0
        have hszx : Json.size v < f ∧ sizeKVs ps < f := by
          have h1 : sizeKVs ((k, v) :: ps) = Json.size v + sizeKVs ps + 1 := rfl
          omega
        obtain ⟨g, hg⟩ : ∃ g, f = g + 1 := ⟨f - 1, by omega⟩
        rw [parseMembers]
        cases ps with
        | nil =>
          have hin : renderMembers [(k, v)] lvl ++ (tail ++ ('\x7d' :: rest)) =
              indentChars lvl ++ ('"' :: (escList k.data ++ (':' :: ' ' ::
                (render v lvl ++ (tail ++ ('\x7d' :: rest)))))) := by
            simp [renderMembers, List.append_assoc]
          have hskip : skipWs (renderMembers [(k, v)] lvl ++ (tail ++ ('\x7d' :: rest))) =
              '"' :: (escList k.data ++ (':' :: ' ' ::
                (render v lvl ++ (tail ++ ('\x7d' :: rest))))) := by
            rw [hin, skipWs_ws_append _ _ (indentChars_ws lvl),
              skipWs_not_ws '"' _ (by decide)]
          simp only [hskip]
          simp only [parseStrAux_escList k.data
            (':' :: ' ' :: (render v lvl ++ (tail ++ ('\x7d' :: rest))))]
          have hsk2 : skipWs (':' :: ' ' :: (render v lvl ++ (tail ++ ('\x7d' :: rest)))) =
              ':' :: ' ' :: (render v lvl ++ (tail ++ ('\x7d' :: rest))) :=
            skipWs_not_ws _ _ (by decide)
          simp only [hsk2]
          have hV : parseValue f (' ' :: (render v lvl ++ (tail ++ ('\x7d' :: rest)))) =
              some (v, tail ++ ('\x7d' :: rest)) := by
            have hsp : (' ' :: (render v lvl ++ (tail ++ ('\x7d' :: rest)))) =
                [' '] ++ (render v lvl ++ (tail ++ ('\x7d' :: rest))) := rfl
            rw [hsp, hg, parseValue_ws g _ _
              (by intro c hc; simp at hc; subst hc; decide), ← hg]
            exact ihV v lvl _ hdx.1
              (NumSafe_ws_append tail '\x7d' rest hws (by decide) (by decide)) hszx.1
          simp only [hV]
          have hsk3 : skipWs (tail ++ ('\x7d' :: rest)) = '\x7d' :: rest := by
            rw [skipWs_ws_append tail _ hws, skipWs_not_ws _ _ (by decide)]
          simp only [hsk3]
        | cons q qs =>
          have hin : renderMembers ((k, v) :: q :: qs) lvl ++ (tail ++ ('\x7d' :: rest)) =
              indentChars lvl ++ ('"' :: (escList k.data ++ (':' :: ' ' ::
                (render v lvl ++ (',' :: (renderMembers (q :: qs) lvl ++
                  (tail ++ ('\x7d' :: rest)))))))) := by
            simp [renderMembers, List.append_assoc]
          have hskip : skipWs (renderMembers ((k, v) :: q :: qs) lvl ++
              (tail ++ ('\x7d' :: rest))) =
              '"' :: (escList k.data ++ (':' :: ' ' ::
                (render v lvl ++ (',' :: (renderMembers (q :: qs) lvl ++
                  (tail ++ ('\x7d' :: rest))))))) := by
            rw [hin, skipWs_ws_append _ _ (indentChars_ws lvl),
              skipWs_not_ws '"' _ (by decide)]
          simp only [hskip]
          simp only [parseStrAux_escList k.data (':' :: ' ' ::
            (render v lvl ++ (',' :: (renderMembers (q :: qs) lvl ++
              (tail ++ ('\x7d' :: rest))))))]
          have hsk2 : skipWs (':' :: ' ' :: (render v lvl ++
              (',' :: (renderMembers (q :: qs) lvl ++ (tail ++ ('\x7d' :: rest)))))) =
              ':' :: ' ' :: (render v lvl ++
                (',' :: (renderMembers (q :: qs) lvl ++ (tail ++ ('\x7d' :: rest))))) :=
            skipWs_not_ws _ _ (by decide)
          simp only [hsk2]
          have hV : parseValue f (' ' :: (render v lvl ++
              (',' :: (renderMembers (q :: qs) lvl ++ (tail ++ ('\x7d' :: rest)))))) =
              some (v, ',' :: (renderMembers (q :: qs) lvl ++
                (tail ++ ('\x7d' :: rest)))) := by
            have hsp : (' ' :: (render v lvl ++ (',' :: (renderMembers (q :: qs) lvl ++
                (tail ++ ('\x7d' :: rest)))))) =
                [' '] ++ (render v lvl ++ (',' :: (renderMembers (q :: qs) lvl ++
                  (tail ++ ('\x7d' :: rest))))) := rfl
            rw [hsp, hg, parseValue_ws g _ _
              (by intro c hc; simp at hc; subst hc; decide), ← hg]
            exact ihV v lvl _ hdx.1
              (NumSafe_cons_of_toNat ',' _ (by decide) (by decide)) hszx.1
          simp only [hV]
          have hsk3 : skipWs (',' :: (renderMembers (q :: qs) lvl ++
              (tail ++ ('\x7d' :: rest)))) =
              ',' :: (renderMembers (q :: qs) lvl ++ (tail ++ ('\x7d' :: rest))) :=
            skipWs_not_ws _ _ (by decide)
          simp only [hsk3]
          have hM2 : parseMembers f (renderMembers (q :: qs) lvl ++
              (tail ++ ('\x7d' :: rest))) = some (q :: qs, rest) :=
            ihM (q :: qs) lvl tail rest (List.cons_ne_nil _ _) hdx.2 hws hszx.2
          simp only [hM2]

lemma size_render_bound : ∀ f : ℕ,
    (∀ v, Json.size v < f → ∀ lvl, Json.size v ≤ (render v lvl).length) ∧
    (∀ xs, sizeList xs < f → ∀ lvl, sizeList xs ≤ (renderElems xs lvl).length) ∧
    (∀ ps, sizeKVs ps < f → ∀ lvl, sizeKVs ps ≤ (renderMembers ps lvl).length) := by
  intro f
  induction f with
  | zero =>
    refine ⟨fun v h => absurd h (by omega), fun xs h => absurd h (by omega),
      fun ps h => absurd h (by omega)⟩
  | succ f ih =>
    obtain ⟨ihV, ihE, ihM⟩ := ih
    refine ⟨?_, ?_, ?_⟩
    · intro v hsz lvl
      cases v with
      | null => exact Nat.zero_le _
      | bool b => exact Nat.zero_le _
      | num q => exact Nat.zero_le _
      | str s => exact Nat.zero_le _
      | arr xs =>
        cases xs with
        | nil =>
          have h1 : Json.size (Json.arr []) = 1 := rfl
          have h2 : (render (Json.arr []) lvl).length = 2 := rfl
          omega
        | cons x xs =>
          have h1 : Json.size (Json.arr (x :: xs)) = sizeList (x :: xs) + 1 := rfl
          have h2 : sizeList (x :: xs) ≤ (renderElems (x :: xs) (lvl + 1)).length :=
            ihE (x :: xs) (by omega) (lvl + 1)
          have h3 : (render (Json.arr (x :: xs)) lvl).length =
              1 + (renderElems (x :: xs) (lvl + 1)).length + (indentChars lvl).length + 1 := by
            show ((('[' :: renderElems (x :: xs) (lvl + 1)) ++ indentChars lvl)
              ++ [']']).length = _
            simp [List.length_append]
            omega
          omega
      | obj ps =>
        cases ps with
        | nil =>
          have h1 : Json.size (Json.obj []) = 1 := rfl
          have h2 : (render (Json.obj []) lvl).length = 2 := rfl
          omega
        | cons p ps =>
          obtain ⟨k, v⟩ := p
          have h1 : Json.size (Json.obj ((k, v) :: ps)) = sizeKVs ((k, v) :: ps) + 1 := rfl
          have h2 : sizeKVs ((k, v) :: ps) ≤ (renderMembers ((k, v) :: ps) (lvl + 1)).length :=
            ihM ((k, v) :: ps) (by omega) (lvl + 1)
          have h3 : (render (Json.obj ((k, v) :: ps)) lvl).length =
              1 + (renderMembers ((k, v) :: ps) (lvl + 1)).length +
                (indentChars lvl).length + 1 := by
            show ((('\x7b' :: renderMembers ((k, v) :: ps) (lvl + 1)) ++ indentChars lvl)
              ++ ['\x7d']).length = _
            simp [List.length_append]
            omega
          omega
    · intro xs hsz lvl
      cases xs with
      | nil => exact Nat.zero_le _
      | cons x xs =>
        have h1 : sizeList (x :: xs) = Json.size x + sizeList xs + 1 := rfl
        have h2 : Json.size x ≤ (render x lvl).length := ihV x (by omega) lvl
        cases xs with
        | nil =>
          have h3 : (renderElems [x] lvl).length =
              (indentChars lvl).length + (render x lvl).length := by
            show ((indentChars lvl) ++ render x lvl).length = _
            simp [List.length_append]
          have h4 : sizeList ([] : List Json) = 0 := rfl
          have h5 : 1 ≤ (indentChars lvl).length := by
            show 1 ≤ ('\n' :: List.replicate (2 * lvl) ' ').length
            simp
          omega
        | cons y ys =>
          have h3 : sizeList (y :: ys) ≤ (renderElems (y :: ys) lvl).length :=
            ihE (y :: ys) (by omega) lvl
          have h4 : (renderElems (x :: y :: ys) lvl).length =
              (indentChars lvl).length + (render x lvl).length + 1 +
                (renderElems (y :: ys) lvl).length := by
            show ((indentChars lvl ++ render x lvl) ++
              (',' :: renderElems (y :: ys) lvl)).length = _
            simp [List.length_append]
            omega
          omega
    · intro ps hsz lvl
      cases ps with
      | nil => exact Nat.zero_le _
      | cons p ps =>
        obtain ⟨k, v⟩ := p
        have h1 : sizeKVs ((k, v) :: ps) = Json.size v + sizeKVs ps + 1 := rfl
        have h2 : Json.size v ≤ (render v lvl).length := ihV v (by omega) lvl
        cases ps with
        | nil =>
          have h3 : (renderMembers [(k, v)] lvl).length =
              (indentChars lvl).length + 1 + (escList k.data).length + 2 +
                (render v lvl).length := by
            show (((indentChars lvl) ++ ('"' :: escList k.data)) ++
              (':' :: ' ' :: render v lvl)).length = _
            simp [List.length_append]
            omega
          have h4 : sizeKVs ([] : List (String × Json)) = 0 := rfl
          omega
        | cons q qs =>
          have h3 : sizeKVs (q :: qs) ≤ (renderMembers (q :: qs) lvl).length :=
            ihM (q :: qs) (by omega) lvl
          have h4 : (renderMembers ((k, v) :: q :: qs) lvl).length =
              (indentChars lvl).length + 1 + (escList k.data).length + 2 +
                (render v lvl).length + 1 + (renderMembers (q :: qs) lvl).length := by
            show ((((indentChars lvl) ++ ('"' :: escList k.data)) ++
              (':' :: ' ' :: render v lvl)) ++ (',' :: renderMembers (q :: qs) lvl)).length = _
            simp [List.length_append]
            omega
          omega

theorem json_roundtrip (v : Json) (hdec : decOkB v = true) :
    json_loads (json_dumps v) = some v := by
  have hsize : Json.size v ≤ (render v 0).length :=
    (size_render_bound (Json.size v + 1)).1 v (by omega) 0
  have hV : parseValue (2 * (render v 0).length + 8) (render v 0 ++ []) = some (v, []) := by
    obtain ⟨g, hg⟩ : ∃ g, 2 * (render v 0).length + 8 = g + 1 :=
      ⟨2 * (render v 0).length + 7, by omega⟩
    exact (parse_render_all _).1 v 0 [] hdec NumSafe_nil (by omega)
  rw [List.append_nil] at hV
  show (match parseValue (2 * (render v 0).length + 8) (render v 0) with
    | some (v, r) => if skipWs r = [] then some v else none
    | none => none) = some v
  simp only [hV]
  rfl

/-- C9: for every ordered sequence of stored records (every JSON number in
them a terminating decimal, as every Python float is), exporting the
collection with json.dumps(indent=2) and parsing the text back with
json.loads reproduces the original ordered sequence exactly, including
records whose skills array is empty. -/
theorem C9_json_roundtrip (records : List Json)
    (hdec : decOkListB records = true) :
    json_loads (json_dumps (Json.arr records)) = some (Json.arr records) :=
  json_roundtrip (Json.arr records) hdec

/-- C9 witness: a two-record collection, one record with an empty skills
array, survives the export/parse round trip unchanged. -/
theorem C9_json_roundtrip_witness :
    decOkListB
      [Json.obj [("name", Json.str "Ada Lovelace"), ("email", Json.str "ada@example.com"),
        ("skills", Json.arr []), ("experience_years", Json.num (mkRat 3 1))],
       Json.obj [("name", Json.str "Bob"), ("email", Json.str "bob@example.com"),
        ("skills", Json.arr [Json.str "Python", Json.str "SQL"]),
        ("experience_years", Json.num (mkRat 5 2)),
        ("source_file", Json.str "cv.pdf")]] = true ∧
    json_loads (json_dumps (Json.arr
      [Json.obj [("name", Json.str "Ada Lovelace"), ("email", Json.str "ada@example.com"),
        ("skills", Json.arr []), ("experience_years", Json.num (mkRat 3 1))],
       Json.obj [("name", Json.str "Bob"), ("email", Json.str "bob@example.com"),
        ("skills", Json.arr [Json.str "Python", Json.str "SQL"]),
        ("experience_years", Json.num (mkRat 5 2)),
        ("source_file", Json.str "cv.pdf")]])) =
      some (Json.arr
      [Json.obj [("name", Json.str "Ada Lovelace"), ("email", Json.str "ada@example.com"),
        ("skills", Json.arr []), ("experience_years", Json.num (mkRat 3 1))],
       Json.obj [("name", Json.str "Bob"), ("email", Json.str "bob@example.com"),
        ("skills", Json.arr [Json.str "Python", Json.str "SQL"]),
        ("experience_years", Json.num (mkRat 5 2)),
        ("source_file", Json.str "cv.pdf")]]) :=
  ⟨by decide, C9_json_roundtrip _ (by decide)⟩
